import Mathlib

/-!
Verification development for the PDF price-updater script (src/script.py).

The script's core is:
* `apply_markup` (script.py lines 47-62): a regex value parser
  `(\d{1,3}(?:[\. ]\d{3})*(?!\d)|\d+)`, separator stripping, the CPython
  float pipeline `int(round(float(raw_val) * multiplier))`, and thousands
  formatting `f"{v:,}".replace(",", " ")`;
* the page-scan pattern (script.py line 14)
  `(?P<prefix>Стоимость\s*[-–]?\s*)?(?P<value>\d{1,3}(?:[\. ]\d{3})*|\d+)\s*(?P<currency>€)`
  with `re.IGNORECASE`;
* `main`'s generation phase (script.py lines 130-191): a table of rows
  joined to detected occurrences by list index, and a two-pass mutation
  (whiteout rectangles, then text insertions).

Model conventions:
* Python regular expressions are embedded as explicit backtracking
  matchers over `List Char` following the exact strategy of the `re`
  engine on these two concrete patterns (leftmost position first; at one
  position the first alternative with all its backtracking possibilities
  precedes the second; greedy quantifiers try longest first).  `\d` is
  modelled as the ASCII digits (the only digits the script's inputs and
  outputs contain).
* CPython floats are modelled exactly, as dyadic values `m·2^e` (`Dy`),
  with round-to-nearest, ties-to-even at 53 significant bits, exponent
  clamped at -1022 (subnormals) and overflow to infinity at 2^1024.
  `round` is ties-to-even on the exact value of the double (CPython's
  `round(float) -> int`).  A function returns `none` where the Python
  code would raise an uncaught exception.
-/

set_option maxRecDepth 100000

namespace PriceUpdater

/-! ### Character classes -/

/-- Model of `\d` (restricted to the ASCII digits `0`-`9`). -/
def isDigitChar (c : Char) : Bool := c.isDigit

/-- The class `[\. ]` of grouping separators in both patterns. -/
def isSepChar (c : Char) : Bool := c = '.' || c = ' '

/-- Model of `\s` (the ASCII whitespace characters; the texts and outputs
involved here contain only `' '`). -/
def isWsChar (c : Char) : Bool :=
  c = ' ' || c = '\t' || c = '\n' || c = '\r' || c = '\x0b' || c = '\x0c'

/-! ### The value pattern of `apply_markup` (script.py line 52)

`re.search(r"(\d{1,3}(?:[\. ]\d{3})*(?!\d)|\d+)", text)`. -/

/-- Length of the maximal digit run at the head of the list (what `\d+`
consumes, and the bound for `\d{1,3}`). -/
def digitRunLen : List Char → Nat
  | [] => 0
  | c :: cs => if isDigitChar c then digitRunLen cs + 1 else 0

/-- The negative lookahead `(?!\d)`: succeeds at end of input or before a
non-digit. -/
def noDigitAt : List Char → Bool
  | [] => true
  | c :: _ => !isDigitChar c

/-- Maximal number of consecutive `[\. ]\d{3}` groups at the head of the
list (the greedy bound for `(?:[\. ]\d{3})*`). -/
def maxGroups : List Char → Nat
  | c1 :: c2 :: c3 :: c4 :: rest =>
      if isSepChar c1 && isDigitChar c2 && isDigitChar c3 && isDigitChar c4 then
        maxGroups rest + 1
      else 0
  | _ => 0

/-- Backtracking over the group count of `(?:[\. ]\d{3})*(?!\d)` after a
leading `\d{k}`: try `m` groups, then `m-1`, ... down to `0`; each group
is exactly 4 characters.  Returns the consumed length `k + 4*m` of the
first success. -/
def tryGroupsFrom (s : List Char) (k : Nat) : Nat → Option Nat
  | 0 => if noDigitAt (s.drop k) then some k else none
  | m+1 =>
      if noDigitAt (s.drop (k + 4*(m+1))) then some (k + 4*(m+1))
      else tryGroupsFrom s k m

/-- Backtracking over the digit count of greedy `\d{1,3}`: try `k` digits,
then `k-1`, ... down to `1`. -/
def tryDigitCount (s : List Char) : Nat → Option Nat
  | 0 => none
  | k+1 =>
      match tryGroupsFrom s (k+1) (maxGroups (s.drop (k+1))) with
      | some len => some len
      | none => tryDigitCount s k

/-- First alternative `\d{1,3}(?:[\. ]\d{3})*(?!\d)` at the head of `s`:
the consumed length of the first successful backtracking possibility. -/
def branch1At (s : List Char) : Option Nat :=
  tryDigitCount s (min 3 (digitRunLen s))

/-- The whole value pattern at the head of `s`: the first alternative with
all its possibilities, then the fallback `\d+` (maximal, and final since
nothing follows it in this pattern). -/
def valMatchAt (s : List Char) : Option Nat :=
  match branch1At s with
  | some len => some len
  | none => if digitRunLen s = 0 then none else some (digitRunLen s)

/-- `re.search` of the value pattern: leftmost matching position wins.
Returns the matched substring and the remaining suffix. -/
def valSearch : List Char → Option (List Char × List Char)
  | [] => none
  | c :: cs =>
      match valMatchAt (c :: cs) with
      | some len => some ((c :: cs).take len, (c :: cs).drop len)
      | none => valSearch cs

/-! ### Exact model of the CPython float pipeline

`int(round(float(raw_val) * multiplier))` with `raw_val` a nonempty digit
string and `multiplier` a Python float. -/

/-- A dyadic rational `m · 2^e`: the exact value of a finite IEEE-754
double (and of exact intermediate products). -/
structure Dy where
  m : Int
  e : Int
deriving DecidableEq, Repr

/-- Number of binary digits of `n` (0 for 0), via structural fuel so that
it computes inside the kernel. -/
def bitlenFuel : Nat → Nat → Nat
  | 0, _ => 0
  | fuel+1, n => if n = 0 then 0 else bitlenFuel fuel (n / 2) + 1

/-- `bitlen n` = number of binary digits of `n`; for `n ≥ 1`,
`2^(bitlen n - 1) ≤ n < 2^(bitlen n)`. -/
def bitlen (n : Nat) : Nat := bitlenFuel n n

/-- Round `a / b` (`b > 0`) to the nearest natural, ties to even. -/
def rheDiv (a b : Nat) : Nat :=
  let q := a / b
  let r := a % b
  if 2*r < b then q else if b < 2*r then q + 1 else if q % 2 = 0 then q else q + 1

/-- Decide `2^e ≤ a / b` by integer comparison. -/
def pow2LeRat (e : Int) (a b : Nat) : Bool :=
  if 0 ≤ e then b * 2 ^ e.toNat ≤ a else b ≤ a * 2 ^ (-e).toNat

/-- `⌊log₂ (a/b)⌋` for `a, b ≥ 1`. -/
def log2floorRat (a b : Nat) : Int :=
  let e0 : Int := (bitlen a : Int) - (bitlen b : Int)
  if pow2LeRat e0 a b then e0 else e0 - 1

/-- Overflow test: `r · 2^(e-52) ≥ 2^1024`. -/
def overflowChk (r : Nat) (e : Int) : Bool :=
  if e ≤ 1076 then 2 ^ (1076 - e).toNat ≤ r else true

/-- Round the positive rational `a / b` (`a ≥ 0`, `b ≥ 1`) to the nearest
IEEE-754 double: `none` models overflow to `inf`.  The exponent of the
leading bit is clamped at `-1022` (subnormal range); ties go to even. -/
def flPosRat (a b : Nat) : Option Dy :=
  if a = 0 then some ⟨0, 0⟩
  else
    let e : Int := max (log2floorRat a b) (-1022)
    let sh : Int := 52 - e
    let r : Nat := if 0 ≤ sh then rheDiv (a * 2 ^ sh.toNat) b else rheDiv a (b * 2 ^ (-sh).toNat)
    if overflowChk r e then none else some ⟨(r : Int), e - 52⟩

/-- Round a positive dyadic `a · 2^e` (`a : ℕ`) to the nearest double. -/
def flDyPos (a : Nat) (e : Int) : Option Dy :=
  if 0 ≤ e then flPosRat (a * 2 ^ e.toNat) 1 else flPosRat a (2 ^ (-e).toNat)

/-- Round a dyadic value to the nearest double (sign handled by symmetry
of round-to-nearest-even); `none` models overflow to `±inf`. -/
def flDy (x : Dy) : Option Dy :=
  if x.m = 0 then some ⟨0, 0⟩
  else if x.m < 0 then
    match flDyPos x.m.natAbs x.e with
    | none => none
    | some y => some ⟨-y.m, y.e⟩
  else flDyPos x.m.natAbs x.e

/-- Exact product of two doubles, before rounding. -/
def dyMul (x y : Dy) : Dy := ⟨x.m * y.m, x.e + y.e⟩

/-- Round `m / d` (`d > 0`) to the nearest integer, ties to even: floor
division leaves a remainder in `[0, d)`, which round-half-even compares
against `d/2`. -/
def rheFdiv (m : Int) (d : Int) : Int :=
  let q := Int.fdiv m d
  let r := m - q * d
  if 2*r < d then q else if d < 2*r then q + 1 else if q % 2 = 0 then q else q + 1

/-- CPython `round(x)` for a finite double `x`: ties-to-even on the exact
value, returning an `int`. -/
def pyRoundD (x : Dy) : Int :=
  if 0 ≤ x.e then x.m * 2 ^ x.e.toNat else rheFdiv x.m (2 ^ (-x.e).toNat)

/-- The value of the Python float literal `1.05` (and of
`1 + 5.0/100`, which is the same double): `4728779608739021 · 2^-52`. -/
def lit105 : Dy := (flPosRat 105 100).getD ⟨0, 0⟩

/-- The value of the Python float literal `1.10` (and of `1 + 10.0/100`). -/
def lit110 : Dy := (flPosRat 110 100).getD ⟨0, 0⟩

/-- The value of the Python float literal `1.0` (exactly 1). -/
def dyOne : Dy := ⟨1, 0⟩

/-! ### Decimal parsing and formatting -/

/-- Numeric value of an ASCII digit. -/
def digitVal (c : Char) : Nat := c.toNat - 48

/-- `int(...)`/`float(...)` on a string of ASCII digits: its decimal
value. -/
def natOfDigits (l : List Char) : Nat :=
  l.foldl (fun a c => 10 * a + digitVal c) 0

/-- The ASCII digit with value `n` (`n < 10`). -/
def digitChar (n : Nat) : Char := Char.ofNat (48 + n)

/-- Decimal digits, least significant first, via structural fuel so that
it computes inside the kernel. -/
def decDigitsRevFuel : Nat → Nat → List Char
  | 0, _ => []
  | fuel+1, n => if n < 10 then [digitChar n] else digitChar (n % 10) :: decDigitsRevFuel fuel (n / 10)

/-- Decimal digits of `n`, least significant first. -/
def decDigitsRev (n : Nat) : List Char := decDigitsRevFuel (n + 1) n

/-- Decimal digits of `n`, most significant first (`str(n)`). -/
def decDigits (n : Nat) : List Char := (decDigitsRev n).reverse

/-- Insert the thousands separator `' '` every three digits, working on
the least-significant-first digit list. -/
def groupRev : List Char → List Char
  | d1 :: d2 :: d3 :: d4 :: rest => d1 :: d2 :: d3 :: ' ' :: groupRev (d4 :: rest)
  | l => l

/-- `f"{n:,}".replace(",", " ")` for a natural `n`. -/
def natGroup (n : Nat) : String := ⟨(groupRev (decDigitsRev n)).reverse⟩

/-- `f"{z:,}".replace(",", " ")` for an integer `z` (the script only ever
formats nonnegative values, but the format handles a sign). -/
def intGroup (z : Int) : String :=
  if z < 0 then "-" ++ natGroup z.natAbs else natGroup z.natAbs

/-- `raw_val.replace(" ", "").replace(".", "")`. -/
def stripSeps (l : List Char) : List Char :=
  l.filter (fun c => !(c = ' ' || c = '.'))

/-! ### `apply_markup` (script.py lines 47-62) -/

/-- The numeric part of `apply_markup` after a successful value match:
`raw_val` is the matched run with separators stripped (a nonempty string
of ASCII digits, so `float(raw_val)` cannot raise `ValueError`).
`none` models an uncaught exception: when `float(raw_val)` overflows to
`inf` and the multiplier is nonzero, or the finite product overflows,
`round` raises `OverflowError`, which the `except ValueError:` clause
does not catch.  (When the multiplier is zero, `inf * 0.0` is `NaN` and
`round` raises `ValueError`, which IS caught, returning `text`.) -/
def markupCore (text : String) (raw : List Char) (origPfx origCur : String)
    (mult : Dy) : Option String :=
  match flPosRat (natOfDigits raw) 1 with
  | none => if mult.m = 0 then some text else none
  | some d =>
      match flDy (dyMul d mult) with
      | none => none
      | some prod => some (origPfx ++ intGroup (pyRoundD prod) ++ " " ++ origCur)

/-- `apply_markup(text, original_prefix, original_currency, multiplier)`:
search the value pattern in `text`; on no match return `text` unchanged;
otherwise strip separators and run the numeric pipeline, formatting the
result as `f"{original_prefix}{formatted_val} {original_currency}"`. -/
def applyMarkup (text origPfx origCur : String) (mult : Dy) : Option String :=
  match valSearch text.data with
  | none => some text
  | some (mt, _) => markupCore text (stripSeps mt) origPfx origCur mult

/-! ### The page-scan pattern (script.py line 14)

`(?P<prefix>Стоимость\s*[-–]?\s*)?(?P<value>\d{1,3}(?:[\. ]\d{3})*|\d+)\s*(?P<currency>€)`
compiled with `re.IGNORECASE`.  Unlike the value pattern of
`apply_markup`, the value group here has no lookahead but is followed by
`\s*€`, so both alternatives backtrack against that continuation. -/

/-- Length of the maximal whitespace run at the head (`\s*` is greedy, and
every continuation below starts with a non-whitespace character, so the
maximal run is the only possibility that can succeed). -/
def wsRunLen : List Char → Nat
  | [] => 0
  | c :: cs => if isWsChar c then wsRunLen cs + 1 else 0

/-- Match `\s*(?P<currency>€)` at the head; returns the consumed length. -/
def currencyAt (s : List Char) : Option Nat :=
  let w := wsRunLen s
  match s.drop w with
  | '€' :: _ => some (w + 1)
  | _ => none

/-- Backtracking over the group count of `(?:[\. ]\d{3})*` followed by the
continuation `\s*€`: greedy, so `m` groups first, down to `0`.  Returns
(value length, continuation length). -/
def tryGroupsCur (s : List Char) (k : Nat) : Nat → Option (Nat × Nat)
  | 0 => (currencyAt (s.drop k)).map (fun c => (k, c))
  | m+1 =>
      match currencyAt (s.drop (k + 4*(m+1))) with
      | some c => some (k + 4*(m+1), c)
      | none => tryGroupsCur s k m

/-- Backtracking over the digit count of greedy `\d{1,3}` with the `\s*€`
continuation. -/
def tryDigitCountCur (s : List Char) : Nat → Option (Nat × Nat)
  | 0 => none
  | k+1 =>
      match tryGroupsCur s (k+1) (maxGroups (s.drop (k+1))) with
      | some r => some r
      | none => tryDigitCountCur s k

/-- The fallback alternative `\d+` with the `\s*€` continuation: greedy,
so the maximal run first, backtracking down to one digit. -/
def dPlusCur (s : List Char) : Nat → Option (Nat × Nat)
  | 0 => none
  | l+1 =>
      match currencyAt (s.drop (l+1)) with
      | some c => some (l+1, c)
      | none => dPlusCur s l

/-- The value group with its continuation at the head of `s`: first
alternative (with all its backtracking possibilities), then `\d+`. -/
def valCurAt (s : List Char) : Option (Nat × Nat) :=
  match tryDigitCountCur s (min 3 (digitRunLen s)) with
  | some r => some r
  | none => dPlusCur s (digitRunLen s)

/-- The word `Стоимость` as (uppercase, lowercase) pairs: `re.IGNORECASE`
makes each position match either case. -/
def ciStoimost : List (Char × Char) :=
  [('С','с'),('Т','т'),('О','о'),('И','и'),('М','м'),('О','о'),('С','с'),('Т','т'),('Ь','ь')]

/-- Case-insensitive literal match; returns the remaining suffix. -/
def matchCI : List (Char × Char) → List Char → Option (List Char)
  | [], s => some s
  | _ :: _, [] => none
  | (up, lo) :: ps, c :: s => if c = up || c = lo then matchCI ps s else none

/-- Match `Стоимость\s*[-–]?\s*` at the head; returns the consumed length.
The character classes of the three trailing parts are pairwise disjoint
and disjoint from the digit that must follow (whitespace / dash / digit),
so the greedy parse is the only possibility and no backtracking inside
the group can rescue a failed continuation. -/
def pfxLenAt (s : List Char) : Option Nat :=
  match matchCI ciStoimost s with
  | none => none
  | some r1 =>
      let w1 := wsRunLen r1
      let r2 := r1.drop w1
      let d : Nat := match r2 with
        | c :: _ => if c = '-' || c = '–' then 1 else 0
        | [] => 0
      let r3 := r2.drop d
      let w2 := wsRunLen r3
      some (9 + w1 + d + w2)

/-- The whole price pattern at the head of `s`: the optional group is
greedy, so the engine first tries with the price label present; if the
rest of the pattern then fails, it retries with the group absent.
Returns (label length, value length, tail length). -/
def priceMatchAt (s : List Char) : Option (Nat × Nat × Nat) :=
  match pfxLenAt s with
  | some p =>
      match valCurAt (s.drop p) with
      | some (v, c) => some (p, v, c)
      | none =>
          match valCurAt s with
          | some (v, c) => some (0, v, c)
          | none => none
  | none =>
      match valCurAt s with
      | some (v, c) => some (0, v, c)
      | none => none

/-- `re.search` of the price pattern: leftmost position wins.  Returns
(label group, value group, whole match), the decomposition
`process_span` stores (`match.group("prefix") or ""`, `match.group("value")`,
`match.group(0)`). -/
def priceSearch : List Char → Option (List Char × List Char × List Char)
  | [] => none
  | c :: cs =>
      match priceMatchAt (c :: cs) with
      | some (p, v, t) =>
          some ((c :: cs).take p, ((c :: cs).drop p).take v, (c :: cs).take (p + v + t))
      | none => priceSearch cs

/-! ### Data model of the generation phase (script.py lines 100-191) -/

/-- A rectangle `(x0, y0, x1, y1)` in page coordinates (`span["bbox"]`,
`fitz.Rect`). -/
structure Rect where
  x0 : ℚ
  y0 : ℚ
  x1 : ℚ
  y1 : ℚ
deriving DecidableEq, Repr

/-- A point in page coordinates. -/
structure Pt where
  x : ℚ
  y : ℚ
deriving DecidableEq, Repr

/-- One detected price occurrence, as built by `process_span`
(script.py lines 33-44): `page` isstored 1-based (`page_num + 1`),
`pfx` is `match.group("prefix") or ""`, geometry comes from the
enclosing span. -/
structure Item where
  page : Nat
  original_text : String
  pfx : String
  value : String
  currency : String
  bbox : Rect
  origin : Pt
  font_size : ℚ
  color : Nat
deriving DecidableEq, Repr

/-- One row of the editable table (`data_for_df`, script.py lines
109-114): `ID`, `Page`, `Original Text`, `New Text`. -/
structure Row where
  id : Nat
  page : Nat
  originalText : String
  newText : String
deriving DecidableEq, Repr

/-- Build one table row (script.py lines 101-114): the `New Text` default
is `apply_markup(original_text, prefix, currency, markup_multiplier)`;
`none` propagates an exception out of the build. -/
def buildRow (mult : Dy) (idx : Nat) (it : Item) : Option Row :=
  (applyMarkup it.original_text it.pfx it.currency mult).map
    (fun nt => ⟨idx, it.page, it.original_text, nt⟩)

/-- The `for idx, item in enumerate(all_prices)` loop building
`data_for_df`, carrying the running index. -/
def buildRowsFrom (mult : Dy) (idx : Nat) : List Item → Option (List Row)
  | [] => some []
  | it :: rest =>
      match buildRow mult idx it with
      | none => none
      | some r =>
          match buildRowsFrom mult (idx + 1) rest with
          | none => none
          | some rs => some (r :: rs)

/-- `data_for_df`: one row per occurrence, `ID` = position in
`all_prices` (`for idx, item in enumerate(all_prices)`). -/
def buildRows (prices : List Item) (mult : Dy) : Option (List Row) :=
  buildRowsFrom mult 0 prices

/-- The `st.data_editor` step: `ID`, `Page` and `Original Text` are
disabled and the row set is fixed, so a user edit replaces each row's
`New Text` and nothing else.  `ts` lists the edited `New Text` values in
row order. -/
def applyEdits (rows : List Row) (ts : List String) : List Row :=
  List.zipWith (fun r t => { r with newText := t }) rows ts

/-- One drawing call issued against the fresh output document:
`page.draw_rect(rect, color=(1,1,1), fill=(1,1,1), overlay=True)` or
`page.insert_text(point, text, fontsize=..., fontname=..., color=0)`.
The page is identified the way the script dereferences it,
`doc_new[item["page"] - 1]`.  (The font name is resolved against the
deployment environment and is outside this model.) -/
inductive Op where
  | fillRect (pg : Int) (rc : Rect) (col : Nat × Nat × Nat)
  | insText (pg : Int) (p : Pt) (text : String) (size : ℚ) (col : Nat)
deriving DecidableEq, Repr

/-- The page index the mutator dereferences for an item. -/
def pageRef (it : Item) : Int := (it.page : Int) - 1

/-- Pass 1 body (script.py lines 136-147) for one row: look up
`all_prices[row["ID"]]` (`none` models an `IndexError`), and if the text
changed, whiteout the occurrence's bounding box on its page. -/
def eraseOpsForRow (prices : List Item) (r : Row) : Option (List Op) :=
  match prices.get? r.id with
  | none => none
  | some it =>
      some (if r.newText ≠ it.original_text then
              [Op.fillRect (pageRef it) it.bbox (1, 1, 1)]
            else [])

/-- Pass 2 body (script.py lines 150-187) for one row: look up the item,
and if the text changed, recompute the display text with
`apply_markup(new_text, prefix, currency, multiplier=1.0)` and insert it
at `(rect.x0, origin[1])` with the original font size, color 0 (black). -/
def insertOpsForRow (prices : List Item) (r : Row) : Option (List Op) :=
  match prices.get? r.id with
  | none => none
  | some it =>
      if r.newText ≠ it.original_text then
        match applyMarkup r.newText it.pfx it.currency dyOne with
        | none => none
        | some dt =>
            some [Op.insText (pageRef it) ⟨it.bbox.x0, it.origin.y⟩ dt it.font_size 0]
      else some []

/-- One full pass of a `for row in edited_rows:` loop, concatenating the
drawing calls in row order; an exception (`none`) aborts the pass. -/
def passOps (f : Row → Option (List Op)) : List Row → Option (List Op)
  | [] => some []
  | r :: rs =>
      match f r with
      | none => none
      | some ops =>
          match passOps f rs with
          | none => none
          | some rest => some (ops ++ rest)

/-- The generation phase: the full erase pass over all rows, then the
full insert pass over all rows — two sequential `for` loops, never
interleaved per item. -/
def genOps (prices : List Item) (rows : List Row) : Option (List Op) :=
  match passOps (eraseOpsForRow prices) rows with
  | none => none
  | some p1 =>
      match passOps (insertOpsForRow prices) rows with
      | none => none
      | some p2 => some (p1 ++ p2)

/-! ### Painter semantics for the drawing calls

Opaque overlay painting: later calls cover earlier ones.  A rectangle
fill covers every point of its rectangle on its page; an inserted text is
anchored at its baseline start point (its glyph extent is not modelled,
so a text op covers exactly its anchor). -/

/-- Final visible layer at one point of one page. -/
inductive Pix where
  | base
  | white
  | black
deriving DecidableEq, Repr

/-- Membership of a point in a rectangle. -/
def inRect (rc : Rect) (p : Pt) : Bool :=
  rc.x0 ≤ p.x && p.x ≤ rc.x1 && rc.y0 ≤ p.y && p.y ≤ rc.y1

/-- Whether a drawing call paints the given point of the given page. -/
def covers (op : Op) (pg : Int) (p : Pt) : Bool :=
  match op with
  | Op.fillRect g rc _ => g = pg && inRect rc p
  | Op.insText g q _ _ _ => g = pg && q = p

/-- The layer a drawing call paints. -/
def paintOf : Op → Pix
  | Op.fillRect _ _ _ => Pix.white
  | Op.insText _ _ _ _ _ => Pix.black

/-- The visible result at a point after executing the calls in order on
top of the original page content. -/
def renderAt (ops : List Op) (pg : Int) (p : Pt) : Pix :=
  ops.foldl (fun acc op => if covers op pg p then paintOf op else acc) Pix.base

/-- Whether a string contains an ASCII digit (decidably). -/
def hasDigitStr (s : String) : Bool := s.data.any isDigitChar

/-- Whether a string is digit-free (decidably); true of every string the
page grammar can produce as a label group or currency group. -/
def noDigitStr (s : String) : Bool := s.data.all (fun ch => !isDigitChar ch)

/-- Value of a least-significant-first digit list (specification side of
`natOfDigits`). -/
def valRev : List Char → Nat
  | [] => 0
  | c :: cs => digitVal c + 10 * valRev cs

/-- Forward-order chains of `' '`-separated three-digit groups: the shape
of everything after the leading group in a formatted number. -/
inductive GroupChain : List Char → Prop where
  | nil : GroupChain []
  | cons (d1 d2 d3 : Char) {G : List Char} :
      isDigitChar d1 = true → isDigitChar d2 = true → isDigitChar d3 = true →
      GroupChain G → GroupChain (' ' :: d1 :: d2 :: d3 :: G)

/-- Shape invariant of the nonnegative doubles the pipeline produces: a
normalized 53-bit significand (the endpoint `2^53` can appear transiently
when rounding up), an exponent of at least `-52` (the value of a parsed
natural), and no overflow. -/
def GoodDy (r : Nat) (e : Int) : Prop :=
  2 ^ 52 ≤ r ∧ r ≤ 2 ^ 53 ∧ -52 ≤ e ∧ overflowChk r (e + 52) = false

/-- Naturals exactly representable as doubles below the overflow
threshold: at most 53 significant bits. -/
def RepDouble (w : Nat) : Prop :=
  ∃ a t : Nat, w = a * 2 ^ t ∧ 1 ≤ a ∧ a < 2 ^ 53 ∧ w < 2 ^ 1024

/-! ### Lemmas: maximality of the matched run -/

theorem digitRunLen_drop (s : List Char) : noDigitAt (s.drop (digitRunLen s)) = true := by
  induction s with
  | nil => rfl
  | cons c cs ih =>
      by_cases h : isDigitChar c
      · simp only [digitRunLen, h, if_pos, List.drop_succ_cons]
        exact ih
      · simp only [digitRunLen, h, if_neg, List.drop_zero, noDigitAt, h, Bool.not_false]
        simp [h]

theorem tryGroupsFrom_some {s : List Char} {k len : Nat} :
    ∀ {m : Nat}, tryGroupsFrom s k m = some len → noDigitAt (s.drop len) = true := by
  intro m
  induction m with
  | zero =>
      intro h
      unfold tryGroupsFrom at h
      split at h
      · cases h; assumption
      · exact absurd h (by simp)
  | succ m ih =>
      intro h
      unfold tryGroupsFrom at h
      split at h
      · cases h; assumption
      · exact ih h

theorem tryDigitCount_some {s : List Char} {len : Nat} :
    ∀ {k : Nat}, tryDigitCount s k = some len → noDigitAt (s.drop len) = true := by
  intro k
  induction k with
  | zero => intro h; exact absurd h (by simp [tryDigitCount])
  | succ k ih =>
      intro h
      unfold tryDigitCount at h
      split at h
      · cases h; exact tryGroupsFrom_some (by assumption)
      · exact ih h

theorem valMatchAt_some {s : List Char} {len : Nat} (h : valMatchAt s = some len) :
    noDigitAt (s.drop len) = true := by
  unfold valMatchAt at h
  split at h
  · cases h; exact tryDigitCount_some (by assumption)
  · split at h
    · exact absurd h (by simp)
    · cases h; exact digitRunLen_drop s

theorem valSearch_rest {s mt rest : List Char} (h : valSearch s = some (mt, rest)) :
    noDigitAt rest = true := by
  induction s with
  | nil => exact absurd h (by simp [valSearch])
  | cons c cs ih =>
      unfold valSearch at h
      split at h
      · rename_i len hm
        cases h
        exact valMatchAt_some hm
      · exact ih h

/-! ### Lemmas: presence and absence of digits -/

theorem digitRunLen_pos {c : Char} {cs : List Char} (h : isDigitChar c = true) :
    digitRunLen (c :: cs) = digitRunLen cs + 1 := by
  simp [digitRunLen, h]

theorem valMatchAt_isSome {c : Char} {cs : List Char} (h : isDigitChar c = true) :
    ∃ len, valMatchAt (c :: cs) = some len := by
  unfold valMatchAt
  cases hb : branch1At (c :: cs) with
  | some l => exact ⟨l, rfl⟩
  | none =>
      refine ⟨digitRunLen (c :: cs), ?_⟩
      rw [digitRunLen_pos h]
      simp

theorem valSearch_isSome_of_digit {s : List Char} {c : Char}
    (hc : c ∈ s) (hd : isDigitChar c = true) : ∃ r, valSearch s = some r := by
  induction s with
  | nil => cases hc
  | cons a as ih =>
      by_cases ha : isDigitChar a
      · obtain ⟨len, hlen⟩ := valMatchAt_isSome ha
        exact ⟨_, by unfold valSearch; rw [hlen]⟩
      · have hmem : c ∈ as := by
          cases hc with
          | head => exact absurd hd (by simp [ha])
          | tail _ h => exact h
        obtain ⟨r, hr⟩ := ih hmem
        refine ⟨r, ?_⟩
        unfold valSearch
        have : valMatchAt (a :: as) = none := by
          unfold valMatchAt branch1At
          have h0 : digitRunLen (a :: as) = 0 := by simp [digitRunLen, ha]
          rw [h0]
          simp [tryDigitCount]
        rw [this, hr]

theorem valSearch_none_of_noDigit {s : List Char}
    (h : ∀ c ∈ s, isDigitChar c = false) : valSearch s = none := by
  induction s with
  | nil => rfl
  | cons a as ih =>
      unfold valSearch
      have ha : isDigitChar a = false := h a (List.mem_cons_self a as)
      have : valMatchAt (a :: as) = none := by
        unfold valMatchAt branch1At
        have h0 : digitRunLen (a :: as) = 0 := by simp [digitRunLen, ha]
        rw [h0]
        simp [tryDigitCount]
      rw [this]
      exact ih (fun c hc => h c (List.mem_cons_of_mem a hc))

/-! ### Lemmas: decimal digits and thousands grouping -/

theorem digitVal_digitChar {n : Nat} (h : n < 10) : digitVal (digitChar n) = n := by
  interval_cases n <;> rfl

theorem isDigitChar_digitChar {n : Nat} (h : n < 10) : isDigitChar (digitChar n) = true := by
  interval_cases n <;> rfl

theorem isDigitChar_ne_space {c : Char} (h : isDigitChar c = true) :
    (c = ' ' || c = '.') = false := by
  have h1 : c ≠ ' ' := fun hc => by subst hc; exact absurd h (by decide)
  have h2 : c ≠ '.' := fun hc => by subst hc; exact absurd h (by decide)
  simp [h1, h2]

theorem decDigitsRevFuel_spec :
    ∀ (fuel n : Nat), n < fuel →
      decDigitsRevFuel fuel n ≠ [] ∧
      (∀ c ∈ decDigitsRevFuel fuel n, isDigitChar c = true) ∧
      valRev (decDigitsRevFuel fuel n) = n := by
  intro fuel
  induction fuel with
  | zero => intro n h; omega
  | succ fuel ih =>
      intro n hn
      by_cases h10 : n < 10
      · refine ⟨by simp [decDigitsRevFuel, h10], ?_, ?_⟩
        · intro c hc
          simp only [decDigitsRevFuel, h10, if_pos, List.mem_singleton] at hc
          subst hc
          exact isDigitChar_digitChar h10
        · simp [decDigitsRevFuel, h10, valRev, digitVal_digitChar h10]
      · have hrec : n / 10 < fuel := by omega
        obtain ⟨hne, hdig, hval⟩ := ih (n / 10) hrec
        refine ⟨by simp [decDigitsRevFuel, h10], ?_, ?_⟩
        · intro c hc
          simp only [decDigitsRevFuel, h10, if_neg, not_false_iff, List.mem_cons] at hc
          rcases hc with hc | hc
          · subst hc
            exact isDigitChar_digitChar (Nat.mod_lt _ (by omega))
          · exact hdig c hc
        · simp only [decDigitsRevFuel, h10, if_neg, not_false_iff, valRev, hval,
            digitVal_digitChar (Nat.mod_lt n (show 0 < 10 by omega))]
          omega

theorem decDigitsRev_ne_nil (n : Nat) : decDigitsRev n ≠ [] :=
  (decDigitsRevFuel_spec (n + 1) n (by omega)).1

theorem decDigitsRev_digits (n : Nat) : ∀ c ∈ decDigitsRev n, isDigitChar c = true :=
  (decDigitsRevFuel_spec (n + 1) n (by omega)).2.1

theorem valRev_decDigitsRev (n : Nat) : valRev (decDigitsRev n) = n :=
  (decDigitsRevFuel_spec (n + 1) n (by omega)).2.2

theorem natOfDigits_reverse (r : List Char) : natOfDigits r.reverse = valRev r := by
  induction r with
  | nil => rfl
  | cons c cs ih =>
      simp only [List.reverse_cons, natOfDigits, List.foldl_append, List.foldl_cons,
        List.foldl_nil, valRev]
      have : List.foldl (fun a c => 10 * a + digitVal c) 0 cs.reverse = valRev cs := ih
      simp only [natOfDigits] at this
      rw [this]
      ring

theorem stripSeps_digits {l : List Char} (h : ∀ c ∈ l, isDigitChar c = true) :
    stripSeps l = l := by
  induction l with
  | nil => rfl
  | cons c cs ih =>
      have hc := isDigitChar_ne_space (h c (List.mem_cons_self c cs))
      simp only [stripSeps, List.filter_cons, hc, Bool.not_false, if_pos]
      simp only [stripSeps] at ih
      rw [ih (fun d hd => h d (List.mem_cons_of_mem c hd))]

theorem stripSeps_cons_digit {c : Char} (h : isDigitChar c = true) (l : List Char) :
    stripSeps (c :: l) = c :: stripSeps l := by
  have hc := isDigitChar_ne_space h
  simp only [stripSeps, List.filter_cons, hc, Bool.not_false, if_pos]

theorem stripSeps_cons_space (l : List Char) : stripSeps (' ' :: l) = stripSeps l := by
  simp [stripSeps, List.filter_cons]

theorem stripSeps_groupRev : ∀ (N : Nat) (r : List Char), r.length ≤ N →
    (∀ c ∈ r, isDigitChar c = true) → stripSeps (groupRev r) = r := by
  intro N
  induction N with
  | zero =>
      intro r hr _
      have : r = [] := List.length_eq_zero.mp (by omega)
      subst this
      rfl
  | succ N ih =>
      intro r hr hd
      match r with
      | [] => rfl
      | [d1] => exact stripSeps_digits hd
      | [d1, d2] => exact stripSeps_digits hd
      | [d1, d2, d3] => exact stripSeps_digits hd
      | d1 :: d2 :: d3 :: d4 :: rest =>
          have hd1 : isDigitChar d1 = true := hd d1 (by simp)
          have hd2 : isDigitChar d2 = true := hd d2 (by simp)
          have hd3 : isDigitChar d3 = true := hd d3 (by simp)
          have hsub : stripSeps (groupRev (d4 :: rest)) = d4 :: rest := by
            apply ih
            · simp only [List.length_cons] at hr ⊢
              omega
            · intro c hc
              exact hd c (by simp [hc])
          show stripSeps (d1 :: d2 :: d3 :: ' ' :: groupRev (d4 :: rest)) = _
          rw [stripSeps_cons_digit hd1, stripSeps_cons_digit hd2, stripSeps_cons_digit hd3,
            stripSeps_cons_space, hsub]

theorem groupChain_snoc {G : List Char} {d1 d2 d3 : Char} (h : GroupChain G)
    (h1 : isDigitChar d1 = true) (h2 : isDigitChar d2 = true) (h3 : isDigitChar d3 = true) :
    GroupChain (G ++ [' ', d1, d2, d3]) := by
  induction h with
  | nil => exact GroupChain.cons d1 d2 d3 h1 h2 h3 GroupChain.nil
  | cons e1 e2 e3 he1 he2 he3 _ ih => exact GroupChain.cons e1 e2 e3 he1 he2 he3 ih

theorem groupRev_reverse_decomp : ∀ (N : Nat) (r : List Char), r.length ≤ N → r ≠ [] →
    (∀ c ∈ r, isDigitChar c = true) →
    ∃ F G, (groupRev r).reverse = F ++ G ∧
      (∀ c ∈ F, isDigitChar c = true) ∧ 1 ≤ F.length ∧ F.length ≤ 3 ∧ GroupChain G := by
  intro N
  induction N with
  | zero =>
      intro r hr hne _
      exact absurd (List.length_eq_zero.mp (by omega)) hne
  | succ N ih =>
      intro r hr hne hd
      match r with
      | [] => exact absurd rfl hne
      | [d1] =>
          exact ⟨[d1], [], by simp [groupRev], by simpa using hd, by simp, by simp,
            GroupChain.nil⟩
      | [d1, d2] =>
          refine ⟨[d2, d1], [], by simp [groupRev], ?_, by simp, by simp, GroupChain.nil⟩
          intro c hc
          apply hd
          simp at hc ⊢
          tauto
      | [d1, d2, d3] =>
          refine ⟨[d3, d2, d1], [], by simp [groupRev], ?_, by simp, by simp, GroupChain.nil⟩
          intro c hc
          apply hd
          simp at hc ⊢
          tauto
      | d1 :: d2 :: d3 :: d4 :: rest =>
          obtain ⟨F, G, hFG, hFdig, hF1, hF3, hGc⟩ := ih (d4 :: rest)
            (by simp only [List.length_cons] at hr ⊢; omega) (by simp)
            (fun c hc => hd c (by simp [hc]))
          refine ⟨F, G ++ [' ', d3, d2, d1], ?_, hFdig, hF1, hF3, ?_⟩
          · simp only [groupRev, List.reverse_cons, hFG]
            simp
          · exact groupChain_snoc hGc (hd d3 (by simp)) (hd d2 (by simp)) (hd d1 (by simp))

/-! ### Lemmas: the value pattern on canonically formatted numbers -/

theorem valMatchAt_none_head {a : Char} {l : List Char} (ha : isDigitChar a = false) :
    valMatchAt (a :: l) = none := by
  unfold valMatchAt branch1At
  have h0 : digitRunLen (a :: l) = 0 := by simp [digitRunLen, ha]
  rw [h0]
  simp [tryDigitCount]

theorem digitRunLen_append_digits {F rest : List Char}
    (hF : ∀ c ∈ F, isDigitChar c = true) (hrest : noDigitAt rest = true) :
    digitRunLen (F ++ rest) = F.length := by
  induction F with
  | nil =>
      simp only [List.nil_append, List.length_nil]
      cases rest with
      | nil => rfl
      | cons c cs =>
          simp only [noDigitAt, Bool.not_eq_true'] at hrest
          simp [digitRunLen, hrest]
  | cons c cs ih =>
      have hc : isDigitChar c = true := hF c (List.mem_cons_self c cs)
      simp only [List.cons_append, digitRunLen, hc, if_pos, List.length_cons]
      have h2 := ih (fun d hd => hF d (List.mem_cons_of_mem c hd))
      show digitRunLen (cs ++ rest) + 1 = cs.length + 1
      omega

theorem noDigitAt_groupChain {G rest : List Char} (hG : GroupChain G)
    (hrest : noDigitAt rest = true) : noDigitAt (G ++ rest) = true := by
  cases hG with
  | nil => simpa using hrest
  | cons d1 d2 d3 _ _ _ _ => rfl

theorem gc_maxGroups {G rest : List Char} (hG : GroupChain G) (h0 : maxGroups rest = 0) :
    maxGroups (G ++ rest) = G.length / 4 ∧ G.length % 4 = 0 := by
  induction hG with
  | nil => simpa using h0
  | cons d1 d2 d3 h1 h2 h3 _ ih =>
      rename_i G' _
      obtain ⟨ihm, ihl⟩ := ih
      constructor
      · show maxGroups (' ' :: d1 :: d2 :: d3 :: (G' ++ rest)) = _
        unfold maxGroups
        have hcond : (isSepChar ' ' && isDigitChar d1 && isDigitChar d2 && isDigitChar d3)
            = true := by
          simp [isSepChar, h1, h2, h3]
        rw [if_pos hcond, ihm]
        simp only [List.length_cons]
        omega
      · simp only [List.length_cons]
        omega

theorem maxGroups_space_noDigit {l : List Char}
    (hl : ∀ ch ∈ l, isDigitChar ch = false) : maxGroups (' ' :: l) = 0 := by
  match l with
  | [] => rfl
  | [a] => rfl
  | [a, b] => rfl
  | a :: b :: c :: rest =>
      show maxGroups (' ' :: a :: b :: c :: rest) = 0
      unfold maxGroups
      have ha : isDigitChar a = false := hl a (by simp)
      simp [ha]

theorem valMatchAt_canonical {F G rest : List Char}
    (hF : ∀ c ∈ F, isDigitChar c = true) (h1 : 1 ≤ F.length) (h3 : F.length ≤ 3)
    (hG : GroupChain G) (hrest : noDigitAt rest = true) (hrest0 : maxGroups rest = 0) :
    valMatchAt (F ++ G ++ rest) = some (F.length + G.length) := by
  have hdr : digitRunLen (F ++ G ++ rest) = F.length := by
    rw [List.append_assoc]
    exact digitRunLen_append_digits hF (noDigitAt_groupChain hG hrest)
  have hdropF : (F ++ G ++ rest).drop F.length = G ++ rest := by
    rw [List.append_assoc]
    exact List.drop_left F (G ++ rest)
  have hdropFG : (F ++ G ++ rest).drop (F.length + G.length) = rest := by
    have : F.length + G.length = (F ++ G).length := by simp
    rw [this]
    exact List.drop_left (F ++ G) rest
  obtain ⟨hmg, hml⟩ := gc_maxGroups hG hrest0
  have hbr : branch1At (F ++ G ++ rest) = some (F.length + G.length) := by
    unfold branch1At
    rw [hdr, Nat.min_eq_right h3]
    obtain ⟨k, hk⟩ : ∃ k, F.length = k + 1 := ⟨F.length - 1, by omega⟩
    rw [hk]
    unfold tryDigitCount
    rw [← hk, hdropF, hmg]
    cases hgq : G.length / 4 with
    | zero =>
        have hGnil : G = [] := List.length_eq_zero.mp (by omega)
        subst hGnil
        unfold tryGroupsFrom
        simp only [List.nil_append] at hdropF
        rw [hdropF]
        simp [hrest, hk]
    | succ m =>
        unfold tryGroupsFrom
        have h4 : 4 * (m + 1) = G.length := by omega
        rw [h4, hdropFG]
        simp [hrest, hk]
  unfold valMatchAt
  rw [hbr]

theorem valSearch_cons_nondigit {a : Char} {l : List Char} (ha : isDigitChar a = false) :
    valSearch (a :: l) = valSearch l := by
  show (match valMatchAt (a :: l) with
    | some len => some ((a :: l).take len, (a :: l).drop len)
    | none => valSearch l) = valSearch l
  rw [valMatchAt_none_head ha]

theorem valSearch_append_noDigit {p t : List Char}
    (hp : ∀ c ∈ p, isDigitChar c = false) : valSearch (p ++ t) = valSearch t := by
  induction p with
  | nil => rfl
  | cons a as ih =>
      rw [List.cons_append, valSearch_cons_nondigit (hp a (List.mem_cons_self a as))]
      exact ih (fun c hc => hp c (List.mem_cons_of_mem a hc))

theorem valSearch_eq_of_match {s : List Char} {len : Nat} (hne : s ≠ [])
    (h : valMatchAt s = some len) : valSearch s = some (s.take len, s.drop len) := by
  match s, hne with
  | c :: cs, _ =>
      show (match valMatchAt (c :: cs) with
        | some len => some ((c :: cs).take len, (c :: cs).drop len)
        | none => valSearch cs) = _
      rw [h]

theorem valSearch_canonical {F G rest : List Char}
    (hF : ∀ c ∈ F, isDigitChar c = true) (h1 : 1 ≤ F.length) (h3 : F.length ≤ 3)
    (hG : GroupChain G) (hrest : noDigitAt rest = true) (hrest0 : maxGroups rest = 0) :
    valSearch (F ++ G ++ rest) = some (F ++ G, rest) := by
  have hm := valMatchAt_canonical hF h1 h3 hG hrest hrest0
  have hne : F ++ G ++ rest ≠ [] := by
    intro hnil
    have := List.append_eq_nil.mp (List.append_eq_nil.mp hnil).1
    have hF0 : F = [] := this.1
    rw [hF0] at h1
    simp at h1
  have hlen : F.length + G.length = (F ++ G).length := by simp
  have htake : (F ++ G ++ rest).take (F.length + G.length) = F ++ G := by
    rw [hlen]
    exact List.take_left (F ++ G) rest
  have hdrop : (F ++ G ++ rest).drop (F.length + G.length) = rest := by
    rw [hlen]
    exact List.drop_left (F ++ G) rest
  rw [valSearch_eq_of_match hne hm, htake, hdrop]

theorem natGroup_decomp (w : Nat) :
    ∃ F G, (natGroup w).data = F ++ G ∧
      (∀ c ∈ F, isDigitChar c = true) ∧ 1 ≤ F.length ∧ F.length ≤ 3 ∧ GroupChain G := by
  have h := groupRev_reverse_decomp (decDigitsRev w).length (decDigitsRev w) le_rfl
    (decDigitsRev_ne_nil w) (decDigitsRev_digits w)
  obtain ⟨F, G, hFG, hFd, h1, h3, hGc⟩ := h
  exact ⟨F, G, hFG, hFd, h1, h3, hGc⟩

theorem filter_reverse_eq (p : Char → Bool) (l : List Char) :
    l.reverse.filter p = (l.filter p).reverse := by
  induction l with
  | nil => rfl
  | cons c cs ih =>
      simp only [List.reverse_cons, List.filter_append, List.filter_cons, List.filter_nil, ih]
      cases hp : p c <;> simp

theorem stripSeps_natGroup (w : Nat) :
    natOfDigits (stripSeps (natGroup w).data) = w := by
  have hdata : (natGroup w).data = (groupRev (decDigitsRev w)).reverse := rfl
  rw [hdata]
  have hrev : stripSeps (groupRev (decDigitsRev w)).reverse
      = (stripSeps (groupRev (decDigitsRev w))).reverse := by
    unfold stripSeps
    exact filter_reverse_eq _ _
  rw [hrev, stripSeps_groupRev (decDigitsRev w).length (decDigitsRev w) le_rfl
    (decDigitsRev_digits w), natOfDigits_reverse, valRev_decDigitsRev]

/-! ### Lemmas: binary length and round-half-even division -/

theorem bitlenFuel_zero (fuel : Nat) : bitlenFuel fuel 0 = 0 := by
  cases fuel <;> simp [bitlenFuel]

theorem bitlenFuel_spec : ∀ (fuel n : Nat), n ≤ fuel → 1 ≤ n →
    1 ≤ bitlenFuel fuel n ∧ 2 ^ (bitlenFuel fuel n - 1) ≤ n ∧ n < 2 ^ bitlenFuel fuel n := by
  intro fuel
  induction fuel with
  | zero => intro n h1 h2; omega
  | succ fuel ih =>
      intro n hn h1
      have hne : ¬ n = 0 := by omega
      by_cases h2 : n = 1
      · subst h2
        simp [bitlenFuel, bitlenFuel_zero]
      · have hge2 : 2 ≤ n := by omega
        have hrec : n / 2 ≤ fuel := by omega
        have hpos : 1 ≤ n / 2 := by omega
        obtain ⟨ih1, ih2, ih3⟩ := ih (n / 2) hrec hpos
        simp only [bitlenFuel, hne, if_neg, not_false_iff]
        refine ⟨by omega, ?_, ?_⟩
        · have : 2 ^ (bitlenFuel fuel (n / 2) + 1 - 1) = 2 * 2 ^ (bitlenFuel fuel (n / 2) - 1) := by
            rw [Nat.add_sub_cancel, ← pow_succ']
            congr 1
            omega
          rw [this]
          omega
        · have : 2 ^ (bitlenFuel fuel (n / 2) + 1) = 2 * 2 ^ bitlenFuel fuel (n / 2) := by
            rw [← pow_succ']
          rw [this]
          omega

theorem bitlen_spec {n : Nat} (h : 1 ≤ n) :
    1 ≤ bitlen n ∧ 2 ^ (bitlen n - 1) ≤ n ∧ n < 2 ^ bitlen n :=
  bitlenFuel_spec n n le_rfl h

theorem bitlen_unique {n L : Nat} (hL : 1 ≤ L) (h1 : 2 ^ (L - 1) ≤ n) (h2 : n < 2 ^ L) :
    bitlen n = L := by
  have hn : 1 ≤ n := le_trans (Nat.one_le_two_pow) h1
  obtain ⟨b1, b2, b3⟩ := bitlen_spec hn
  rcases Nat.lt_trichotomy (bitlen n) L with hlt | heq | hgt
  · have : (2 : Nat) ^ bitlen n ≤ 2 ^ (L - 1) := Nat.pow_le_pow_right (by omega) (by omega)
    omega
  · exact heq
  · have : (2 : Nat) ^ L ≤ 2 ^ (bitlen n - 1) := Nat.pow_le_pow_right (by omega) (by omega)
    omega

theorem bitlen_one : bitlen 1 = 1 := rfl

theorem bitlen_mul_pow2 {a : Nat} (ha : 1 ≤ a) (t : Nat) :
    bitlen (a * 2 ^ t) = bitlen a + t := by
  obtain ⟨b1, b2, b3⟩ := bitlen_spec ha
  apply bitlen_unique (by omega)
  · have : 2 ^ (bitlen a + t - 1) = 2 ^ (bitlen a - 1) * 2 ^ t := by
      rw [← pow_add]
      congr 1
      omega
    rw [this]
    exact Nat.mul_le_mul_right _ b2
  · rw [pow_add]
    exact (Nat.mul_lt_mul_right (Nat.pos_pow_of_pos t (by omega))).mpr b3

theorem bitlen_two_pow (k : Nat) : bitlen (2 ^ k) = k + 1 := by
  have h := bitlen_mul_pow2 (a := 1) le_rfl k
  rw [one_mul, bitlen_one] at h
  omega

theorem rheDiv_one (a : Nat) : rheDiv a 1 = a := by
  simp [rheDiv, Nat.mod_one]

theorem rheDiv_exact {a b : Nat} (hb : 0 < b) (h : b ∣ a) : rheDiv a b = a / b := by
  obtain ⟨c, rfl⟩ := h
  simp [rheDiv, Nat.mul_mod_right, hb]

theorem le_rheDiv (a b : Nat) : a / b ≤ rheDiv a b := by
  unfold rheDiv
  dsimp only
  split_ifs <;> omega

theorem rheDiv_le (a b : Nat) : rheDiv a b ≤ a / b + 1 := by
  unfold rheDiv
  dsimp only
  split_ifs <;> omega

theorem rheFdiv_cast (a b : Nat) (hb : 0 < b) :
    rheFdiv (a : Int) (b : Int) = (rheDiv a b : Int) := by
  have hq : Int.fdiv (a : Int) (b : Int) = ((a / b : Nat) : Int) :=
    (Int.ofNat_fdiv a b).symm
  have hmod := Nat.mod_add_div a b
  obtain ⟨q, hqd⟩ : ∃ q, a / b = q := ⟨_, rfl⟩
  obtain ⟨r2, hrd⟩ : ∃ r2, a % b = r2 := ⟨_, rfl⟩
  rw [hqd] at hq
  rw [hrd, hqd] at hmod
  unfold rheFdiv rheDiv
  dsimp only
  rw [hq]
  have hr : (a : Int) - (q : Int) * (b : Int) = (r2 : Int) := by
    have h' : (r2 : Int) + (b : Int) * (q : Int) = (a : Int) := by exact_mod_cast hmod
    linarith
  rw [hr, hrd, hqd]
  split_ifs <;> push_cast at * <;> omega

theorem pyRoundD_nat (r : Nat) (e : Int) :
    pyRoundD ⟨(r : Int), e⟩ =
      ((if 0 ≤ e then r * 2 ^ e.toNat else rheDiv r (2 ^ (-e).toNat) : Nat) : Int) := by
  unfold pyRoundD
  by_cases he : 0 ≤ e
  · simp only [he, if_pos]
    push_cast
    ring
  · simp only [he, if_neg, not_false_iff]
    have h2 : ((2 : Int) ^ (-e).toNat) = ((2 ^ (-e).toNat : Nat) : Int) := by push_cast; ring
    rw [h2, rheFdiv_cast r _ (Nat.pos_pow_of_pos _ (by omega))]

/-! ### Lemmas: the rounding core `flPosRat` -/

theorem overflowChk_false_iff {r : Nat} {ee : Int} :
    overflowChk r ee = false ↔ ee ≤ 1076 ∧ r < 2 ^ (1076 - ee).toNat := by
  unfold overflowChk
  by_cases h : ee ≤ 1076
  · simp [h]
  · simp [h]

theorem log2floorRat_one {a : Nat} (ha : 1 ≤ a) :
    log2floorRat a 1 = (bitlen a : Int) - 1 := by
  obtain ⟨b1, b2, b3⟩ := bitlen_spec ha
  unfold log2floorRat
  rw [bitlen_one]
  have he0 : (0 : Int) ≤ (bitlen a : Int) - 1 := by omega
  have hcond : pow2LeRat ((bitlen a : Int) - 1) a 1 = true := by
    unfold pow2LeRat
    rw [if_pos he0]
    simp only [decide_eq_true_eq, one_mul]
    have ht : ((bitlen a : Int) - 1).toNat = bitlen a - 1 := by omega
    rw [ht]
    exact b2
  simp only [Int.natCast_one, hcond, if_true]

theorem log2floorRat_pow2 {a k : Nat} (ha : 1 ≤ a) (hk : k + 1 ≤ bitlen a) :
    log2floorRat a (2 ^ k) = (bitlen a : Int) - (k + 1) := by
  obtain ⟨b1, b2, b3⟩ := bitlen_spec ha
  unfold log2floorRat
  rw [bitlen_two_pow k]
  have he0 : (0 : Int) ≤ (bitlen a : Int) - (k + 1) := by omega
  have hcond : pow2LeRat ((bitlen a : Int) - ((k : Int) + 1)) a (2 ^ k) = true := by
    unfold pow2LeRat
    rw [if_pos he0]
    simp only [decide_eq_true_eq]
    have ht : ((bitlen a : Int) - ((k : Int) + 1)).toNat = bitlen a - (k + 1) := by omega
    rw [ht]
    calc 2 ^ k * 2 ^ (bitlen a - (k + 1)) = 2 ^ (bitlen a - 1) := by
          rw [← pow_add]
          congr 1
          omega
      _ ≤ a := b2
  have hcast : ((bitlen a : Int)) - ((k + 1 : Nat) : Int) = (bitlen a : Int) - ((k : Int) + 1) := by
    push_cast
    ring
  rw [hcast]
  dsimp only
  rw [hcond]
  simp

theorem flPosRat_eval {a b : Nat} (ha : a ≠ 0) {eL : Int} (heL : log2floorRat a b = eL)
    (hclamp : -1022 ≤ eL) :
    flPosRat a b =
      (if overflowChk (if 0 ≤ 52 - eL then rheDiv (a * 2 ^ (52 - eL).toNat) b
                       else rheDiv a (b * 2 ^ (-(52 - eL)).toNat)) eL
       then none
       else some ⟨((if 0 ≤ 52 - eL then rheDiv (a * 2 ^ (52 - eL).toNat) b
                    else rheDiv a (b * 2 ^ (-(52 - eL)).toNat) : Nat) : Int), eL - 52⟩) := by
  unfold flPosRat
  rw [if_neg ha]
  simp only [heL, max_eq_left hclamp]

theorem bitlen_53 {r : Nat} (h52 : 2 ^ 52 ≤ r) (h53 : r < 2 ^ 53) : bitlen r = 53 :=
  bitlen_unique (by omega) (by simpa using h52) h53

theorem flDyPos_fix {r : Nat} {e : Int} (h52 : 2 ^ 52 ≤ r) (h53 : r < 2 ^ 53)
    (hlo : -52 ≤ e) (hov : overflowChk r (e + 52) = false) :
    flDyPos r e = some ⟨(r : Int), e⟩ := by
  have hr1 : 1 ≤ r := le_trans Nat.one_le_two_pow h52
  have hbl : bitlen r = 53 := bitlen_53 h52 h53
  unfold flDyPos
  by_cases he : 0 ≤ e
  · rw [if_pos he]
    obtain ⟨t, rfl⟩ : ∃ t : Nat, e = (t : Int) := ⟨e.toNat, (Int.toNat_of_nonneg he).symm⟩
    rw [Int.toNat_natCast]
    have hane : r * 2 ^ t ≠ 0 := by positivity
    have hbl2 : bitlen (r * 2 ^ t) = 53 + t := by rw [bitlen_mul_pow2 hr1, hbl]
    have hlog : log2floorRat (r * 2 ^ t) 1 = 52 + (t : Int) := by
      rw [log2floorRat_one (Nat.pos_of_ne_zero hane), hbl2]
      push_cast
      ring
    rw [flPosRat_eval hane hlog (by omega)]
    have hovt : overflowChk r (52 + (t : Int)) = false := by
      rw [show (52 + (t : Int)) = (t : Int) + 52 by ring]
      exact hov
    by_cases ht0 : t = 0
    · subst ht0
      have hsh : (0 : Int) ≤ 52 - (52 + ((0 : Nat) : Int)) := by norm_num
      rw [if_pos hsh]
      have h1 : ((52 : Int) - (52 + ((0 : Nat) : Int))).toNat = 0 := by norm_num
      rw [h1]
      simp only [pow_zero, mul_one, rheDiv_one]
      rw [hovt]
      norm_num
    · have hsh : ¬ ((0 : Int) ≤ 52 - (52 + (t : Int))) := by omega
      rw [if_neg hsh]
      have h1 : (-(52 - (52 + (t : Int)))).toNat = t := by omega
      rw [h1, one_mul]
      have hr2 : rheDiv (r * 2 ^ t) (2 ^ t) = r := by
        rw [rheDiv_exact (Nat.pos_pow_of_pos t (by omega)) (dvd_mul_left (2 ^ t) r)]
        exact Nat.mul_div_cancel r (Nat.pos_pow_of_pos t (by omega))
      rw [hr2, hovt]
      have h2 : (52 : Int) + (t : Int) - 52 = (t : Int) := by ring
      rw [h2]
      simp
  · rw [if_neg he]
    obtain ⟨k, hk1, hk52, hek⟩ : ∃ k : Nat, 1 ≤ k ∧ k ≤ 52 ∧ e = -(k : Int) :=
      ⟨(-e).toNat, by omega, by omega, by omega⟩
    subst hek
    have hkt : (-(-(k : Int))).toNat = k := by omega
    rw [hkt]
    have hlog : log2floorRat r (2 ^ k) = 52 - (k : Int) := by
      rw [log2floorRat_pow2 hr1 (by omega), hbl]
      push_cast
      ring
    rw [flPosRat_eval (by omega) hlog (by omega)]
    have hsh : (0 : Int) ≤ 52 - (52 - (k : Int)) := by omega
    rw [if_pos hsh]
    have h1 : ((52 : Int) - (52 - (k : Int))).toNat = k := by omega
    rw [h1]
    have hr2 : rheDiv (r * 2 ^ k) (2 ^ k) = r := by
      rw [rheDiv_exact (Nat.pos_pow_of_pos k (by omega)) (dvd_mul_left (2 ^ k) r)]
      exact Nat.mul_div_cancel r (Nat.pos_pow_of_pos k (by omega))
    rw [hr2]
    have hovt : overflowChk r (52 - (k : Int)) = false := by
      rw [show (52 - (k : Int)) = -(k : Int) + 52 by ring]
      exact hov
    rw [hovt]
    have h2 : (52 : Int) - (k : Int) - 52 = -(k : Int) := by ring
    rw [h2]
    simp

theorem flDyPos_fix53 {e : Int} (hlo : -52 ≤ e)
    (hov : overflowChk (2 ^ 53) (e + 52) = false) :
    flDyPos (2 ^ 53) e = some ⟨((2 ^ 52 : Nat) : Int), e + 1⟩ := by
  obtain ⟨hov1, hov2⟩ := overflowChk_false_iff.mp hov
  have he970 : e ≤ 970 := by
    by_contra hgt
    have hm : 53 < (1076 - (e + 52)).toNat → False := by
      intro h
      omega
    apply hm
    exact (Nat.pow_lt_pow_iff_right (by omega)).mp hov2
  have hbl : bitlen (2 ^ 53) = 54 := bitlen_two_pow 53
  unfold flDyPos
  by_cases he : 0 ≤ e
  · rw [if_pos he]
    obtain ⟨t, rfl⟩ : ∃ t : Nat, e = (t : Int) := ⟨e.toNat, (Int.toNat_of_nonneg he).symm⟩
    rw [Int.toNat_natCast]
    have hane : (2 ^ 53) * 2 ^ t ≠ 0 := by positivity
    have hbl2 : bitlen ((2 ^ 53) * 2 ^ t) = 54 + t := by
      rw [bitlen_mul_pow2 (Nat.pos_pow_of_pos 53 (by omega)) t, hbl]
    have hlog : log2floorRat ((2 ^ 53) * 2 ^ t) 1 = 53 + (t : Int) := by
      rw [log2floorRat_one (Nat.pos_of_ne_zero hane), hbl2]
      push_cast
      ring
    rw [flPosRat_eval hane hlog (by omega)]
    have hsh : ¬ ((0 : Int) ≤ 52 - (53 + (t : Int))) := by omega
    rw [if_neg hsh]
    have h1 : (-(52 - (53 + (t : Int)))).toNat = 1 + t := by omega
    rw [h1, one_mul]
    have hpow : (2 ^ 53) * 2 ^ t = 2 ^ (53 + t) := by rw [pow_add]
    have hr2 : rheDiv ((2 ^ 53) * 2 ^ t) (2 ^ (1 + t)) = 2 ^ 52 := by
      rw [hpow, rheDiv_exact (Nat.pos_pow_of_pos _ (by omega))
        (pow_dvd_pow 2 (by omega)), Nat.pow_div (by omega) (by omega)]
      have hexp : 53 + t - (1 + t) = 52 := by omega
      rw [hexp]
    rw [hr2]
    have hovt : overflowChk (2 ^ 52) (53 + (t : Int)) = false := by
      rw [overflowChk_false_iff]
      constructor
      · omega
      · have ht : ((1076 : Int) - (53 + (t : Int))).toNat = 1023 - t := by omega
        rw [ht]
        exact (Nat.pow_lt_pow_iff_right (by omega)).mpr (by omega)
    rw [hovt]
    have h2 : (53 : Int) + (t : Int) - 52 = (t : Int) + 1 := by ring
    rw [h2]
    simp
  · rw [if_neg he]
    obtain ⟨k, hk1, hk52, hek⟩ : ∃ k : Nat, 1 ≤ k ∧ k ≤ 52 ∧ e = -(k : Int) :=
      ⟨(-e).toNat, by omega, by omega, by omega⟩
    subst hek
    have hkt : (-(-(k : Int))).toNat = k := by omega
    rw [hkt]
    have hlog : log2floorRat (2 ^ 53) (2 ^ k) = 53 - (k : Int) := by
      rw [log2floorRat_pow2 (Nat.pos_pow_of_pos 53 (by omega)) (by omega), hbl]
      push_cast
      ring
    rw [flPosRat_eval (by positivity) hlog (by omega)]
    have hsh : (0 : Int) ≤ 52 - (53 - (k : Int)) := by omega
    rw [if_pos hsh]
    have h1 : ((52 : Int) - (53 - (k : Int))).toNat = k - 1 := by omega
    rw [h1]
    have hpow : (2 ^ 53) * 2 ^ (k - 1) = 2 ^ (52 + k) := by
      rw [← pow_add]
      have hexp : 53 + (k - 1) = 52 + k := by omega
      rw [hexp]
    have hr2 : rheDiv ((2 ^ 53) * 2 ^ (k - 1)) (2 ^ k) = 2 ^ 52 := by
      rw [hpow, rheDiv_exact (Nat.pos_pow_of_pos _ (by omega))
        (pow_dvd_pow 2 (by omega)), Nat.pow_div (by omega) (by omega)]
      have hexp : 52 + k - k = 52 := by omega
      rw [hexp]
    rw [hr2]
    have hovt : overflowChk (2 ^ 52) (53 - (k : Int)) = false := by
      rw [overflowChk_false_iff]
      constructor
      · omega
      · have ht : ((1076 : Int) - (53 - (k : Int))).toNat = 1023 + k := by omega
        rw [ht]
        exact (Nat.pow_lt_pow_iff_right (by omega)).mpr (by omega)
    rw [hovt]
    have h2 : (53 : Int) - (k : Int) - 52 = -(k : Int) + 1 := by ring
    rw [h2]
    simp

theorem pyRoundD_53_shift {e : Int} (hlo : -52 ≤ e) :
    pyRoundD ⟨((2 ^ 52 : Nat) : Int), e + 1⟩ = pyRoundD ⟨((2 ^ 53 : Nat) : Int), e⟩ := by
  rw [pyRoundD_nat, pyRoundD_nat]
  by_cases he : 0 ≤ e
  · have he1 : (0 : Int) ≤ e + 1 := by omega
    rw [if_pos he1, if_pos he]
    congr 1
    have h1 : (e + 1).toNat = e.toNat + 1 := by omega
    rw [h1, ← pow_add, ← pow_add]
    have hexp : 52 + (e.toNat + 1) = 53 + e.toNat := by omega
    rw [hexp]
  · by_cases he1 : (0 : Int) ≤ e + 1
    · have hel : e = -1 := by omega
      subst hel
      norm_num
      decide
    · rw [if_neg he1, if_neg he]
      congr 1
      obtain ⟨k, hk2, hk52, hek⟩ : ∃ k : Nat, 2 ≤ k ∧ k ≤ 52 ∧ e = -(k : Int) :=
        ⟨(-e).toNat, by omega, by omega, by omega⟩
      subst hek
      have h1 : (-(-(k : Int) + 1)).toNat = k - 1 := by omega
      have h2 : (-(-(k : Int))).toNat = k := by omega
      rw [h1, h2]
      rw [rheDiv_exact (Nat.pos_pow_of_pos _ (by omega)) (pow_dvd_pow 2 (by omega)),
        rheDiv_exact (Nat.pos_pow_of_pos _ (by omega)) (pow_dvd_pow 2 (by omega)),
        Nat.pow_div (by omega) (by omega), Nat.pow_div (by omega) (by omega)]
      have hexp : 52 - (k - 1) = 53 - k := by omega
      rw [hexp]

theorem flPosRat_one_shape {n : Nat} (hn : 1 ≤ n) {d : Dy} (h : flPosRat n 1 = some d) :
    ∃ (r : Nat) (e : Int), d = ⟨(r : Int), e⟩ ∧ GoodDy r e := by
  obtain ⟨b1, b2, b3⟩ := bitlen_spec hn
  have hlog := log2floorRat_one hn
  rw [flPosRat_eval (by omega) hlog (by omega)] at h
  by_cases hble : bitlen n ≤ 53
  · have hsh : (0 : Int) ≤ 52 - ((bitlen n : Int) - 1) := by omega
    rw [if_pos hsh] at h
    have ht : ((52 : Int) - ((bitlen n : Int) - 1)).toNat = 53 - bitlen n := by omega
    rw [ht, rheDiv_one] at h
    set R := n * 2 ^ (53 - bitlen n) with hR
    have hR52 : 2 ^ 52 ≤ R := by
      calc (2 : Nat) ^ 52 = 2 ^ (bitlen n - 1) * 2 ^ (53 - bitlen n) := by
            rw [← pow_add]
            congr 1
            omega
        _ ≤ n * 2 ^ (53 - bitlen n) := Nat.mul_le_mul_right _ b2
    have hR53 : R < 2 ^ 53 := by
      calc R < 2 ^ bitlen n * 2 ^ (53 - bitlen n) :=
            (Nat.mul_lt_mul_right (Nat.pos_pow_of_pos _ (by omega))).mpr b3
        _ = 2 ^ 53 := by
            rw [← pow_add]
            congr 1
            omega
    cases hov : overflowChk R ((bitlen n : Int) - 1) with
    | true => rw [hov] at h; simp at h
    | false =>
        rw [hov] at h
        simp only [Bool.false_eq_true, if_false, Option.some_inj] at h
        refine ⟨R, (bitlen n : Int) - 1 - 52, h.symm, hR52, le_of_lt hR53, by omega, ?_⟩
        rw [show (bitlen n : Int) - 1 - 52 + 52 = (bitlen n : Int) - 1 by ring]
        exact hov
  · have hsh : ¬ ((0 : Int) ≤ 52 - ((bitlen n : Int) - 1)) := by omega
    rw [if_neg hsh] at h
    have ht : (-(52 - ((bitlen n : Int) - 1))).toNat = bitlen n - 53 := by omega
    rw [ht, one_mul] at h
    set R := rheDiv n (2 ^ (bitlen n - 53)) with hR
    have hpos : (0 : Nat) < 2 ^ (bitlen n - 53) := Nat.pos_pow_of_pos _ (by omega)
    have hR52 : 2 ^ 52 ≤ R := by
      have hdiv : 2 ^ 52 ≤ n / 2 ^ (bitlen n - 53) := by
        rw [Nat.le_div_iff_mul_le hpos, ← pow_add]
        calc (2 : Nat) ^ (52 + (bitlen n - 53)) = 2 ^ (bitlen n - 1) := by
              congr 1
              omega
          _ ≤ n := b2
      exact le_trans hdiv (le_rheDiv _ _)
    have hR53 : R ≤ 2 ^ 53 := by
      have hdiv : n / 2 ^ (bitlen n - 53) < 2 ^ 53 := by
        rw [Nat.div_lt_iff_lt_mul hpos, ← pow_add]
        calc n < 2 ^ bitlen n := b3
          _ = 2 ^ (53 + (bitlen n - 53)) := by
              congr 1
              omega
      have := rheDiv_le n (2 ^ (bitlen n - 53))
      omega
    cases hov : overflowChk R ((bitlen n : Int) - 1) with
    | true => rw [hov] at h; simp at h
    | false =>
        rw [hov] at h
        simp only [Bool.false_eq_true, if_false, Option.some_inj] at h
        refine ⟨R, (bitlen n : Int) - 1 - 52, h.symm, hR52, hR53, by omega, ?_⟩
        rw [show (bitlen n : Int) - 1 - 52 + 52 = (bitlen n : Int) - 1 by ring]
        exact hov

theorem bitlen_le_of_lt_pow {a L : Nat} (ha : 1 ≤ a) (h : a < 2 ^ L) : bitlen a ≤ L := by
  obtain ⟨b1, b2, b3⟩ := bitlen_spec ha
  by_contra hgt
  have : (2 : Nat) ^ L ≤ 2 ^ (bitlen a - 1) := Nat.pow_le_pow_right (by omega) (by omega)
  omega

theorem flPosRat_repr {w : Nat} (hw1 : 1 ≤ w) (hrep : RepDouble w) :
    ∃ (r : Nat) (e : Int), flPosRat w 1 = some ⟨(r : Int), e⟩ ∧ GoodDy r e ∧ r < 2 ^ 53 ∧
      pyRoundD ⟨(r : Int), e⟩ = (w : Int) := by
  obtain ⟨a, t, hwat, ha1, ha53, hw1024⟩ := hrep
  obtain ⟨b1, b2, b3⟩ := bitlen_spec hw1
  have hbl1024 : bitlen w ≤ 1024 := bitlen_le_of_lt_pow hw1 hw1024
  have hlog := log2floorRat_one hw1
  by_cases hble : bitlen w ≤ 53
  · refine ⟨w * 2 ^ (53 - bitlen w), (bitlen w : Int) - 53, ?_, ?_, ?_, ?_⟩
    · rw [flPosRat_eval (by omega) hlog (by omega)]
      have hsh : (0 : Int) ≤ 52 - ((bitlen w : Int) - 1) := by omega
      rw [if_pos hsh]
      have ht : ((52 : Int) - ((bitlen w : Int) - 1)).toNat = 53 - bitlen w := by omega
      rw [ht, rheDiv_one]
      have hov : overflowChk (w * 2 ^ (53 - bitlen w)) ((bitlen w : Int) - 1) = false := by
        rw [overflowChk_false_iff]
        refine ⟨by omega, ?_⟩
        have ht2 : ((1076 : Int) - ((bitlen w : Int) - 1)).toNat = 1077 - bitlen w := by omega
        rw [ht2]
        calc w * 2 ^ (53 - bitlen w) < 2 ^ bitlen w * 2 ^ (53 - bitlen w) :=
              (Nat.mul_lt_mul_right (Nat.pos_pow_of_pos _ (by omega))).mpr b3
          _ = 2 ^ 53 := by
              rw [← pow_add]
              congr 1
              omega
          _ ≤ 2 ^ (1077 - bitlen w) := Nat.pow_le_pow_right (by omega) (by omega)
      rw [hov]
      have he : (bitlen w : Int) - 1 - 52 = (bitlen w : Int) - 53 := by ring
      rw [he]
      simp
    · refine ⟨?_, ?_, by omega, ?_⟩
      · calc (2 : Nat) ^ 52 = 2 ^ (bitlen w - 1) * 2 ^ (53 - bitlen w) := by
              rw [← pow_add]
              congr 1
              omega
          _ ≤ w * 2 ^ (53 - bitlen w) := Nat.mul_le_mul_right _ b2
      · refine le_of_lt ?_
        calc w * 2 ^ (53 - bitlen w) < 2 ^ bitlen w * 2 ^ (53 - bitlen w) :=
              (Nat.mul_lt_mul_right (Nat.pos_pow_of_pos _ (by omega))).mpr b3
          _ = 2 ^ 53 := by
              rw [← pow_add]
              congr 1
              omega
      · rw [show (bitlen w : Int) - 53 + 52 = (bitlen w : Int) - 1 by ring]
        rw [overflowChk_false_iff]
        refine ⟨by omega, ?_⟩
        have ht2 : ((1076 : Int) - ((bitlen w : Int) - 1)).toNat = 1077 - bitlen w := by omega
        rw [ht2]
        calc w * 2 ^ (53 - bitlen w) < 2 ^ bitlen w * 2 ^ (53 - bitlen w) :=
              (Nat.mul_lt_mul_right (Nat.pos_pow_of_pos _ (by omega))).mpr b3
          _ = 2 ^ 53 := by
              rw [← pow_add]
              congr 1
              omega
          _ ≤ 2 ^ (1077 - bitlen w) := Nat.pow_le_pow_right (by omega) (by omega)
    · calc w * 2 ^ (53 - bitlen w) < 2 ^ bitlen w * 2 ^ (53 - bitlen w) :=
            (Nat.mul_lt_mul_right (Nat.pos_pow_of_pos _ (by omega))).mpr b3
        _ = 2 ^ 53 := by
            rw [← pow_add]
            congr 1
            omega
    · rw [pyRoundD_nat]
      by_cases hbl53 : bitlen w = 53
      · have he : (0 : Int) ≤ (bitlen w : Int) - 53 := by omega
        rw [if_pos he]
        have ht : ((bitlen w : Int) - 53).toNat = 0 := by omega
        rw [ht]
        congr 1
        rw [hbl53]
        norm_num
      · have he : ¬ ((0 : Int) ≤ (bitlen w : Int) - 53) := by omega
        rw [if_neg he]
        have ht : (-((bitlen w : Int) - 53)).toNat = 53 - bitlen w := by omega
        rw [ht]
        congr 1
        rw [rheDiv_exact (Nat.pos_pow_of_pos _ (by omega)) (dvd_mul_left _ _)]
        exact Nat.mul_div_cancel w (Nat.pos_pow_of_pos _ (by omega))
  · have hblat : bitlen w = bitlen a + t := by rw [hwat]; exact bitlen_mul_pow2 ha1 t
    have hba53 : bitlen a ≤ 53 := bitlen_le_of_lt_pow ha1 ha53
    have hdvd : 2 ^ (bitlen w - 53) ∣ w := by
      have h1 : (2 : Nat) ^ (bitlen w - 53) ∣ 2 ^ t := pow_dvd_pow 2 (by omega)
      have h2 : (2 : Nat) ^ t ∣ w := by
        rw [hwat]
        exact dvd_mul_left _ a
      exact h1.trans h2
    have hpos : (0 : Nat) < 2 ^ (bitlen w - 53) := Nat.pos_pow_of_pos _ (by omega)
    have hRdef : rheDiv w (2 ^ (bitlen w - 53)) = w / 2 ^ (bitlen w - 53) :=
      rheDiv_exact hpos hdvd
    have hmulback : w / 2 ^ (bitlen w - 53) * 2 ^ (bitlen w - 53) = w :=
      Nat.div_mul_cancel hdvd
    set R := w / 2 ^ (bitlen w - 53) with hRv
    have hR52 : 2 ^ 52 ≤ R := by
      rw [hRv, Nat.le_div_iff_mul_le hpos, ← pow_add]
      calc (2 : Nat) ^ (52 + (bitlen w - 53)) = 2 ^ (bitlen w - 1) := by
            congr 1
            omega
        _ ≤ w := b2
    have hR53 : R < 2 ^ 53 := by
      rw [hRv, Nat.div_lt_iff_lt_mul hpos, ← pow_add]
      calc w < 2 ^ bitlen w := b3
        _ = 2 ^ (53 + (bitlen w - 53)) := by
            congr 1
            omega
    have hov : overflowChk R ((bitlen w : Int) - 1) = false := by
      rw [overflowChk_false_iff]
      refine ⟨by omega, ?_⟩
      have ht2 : ((1076 : Int) - ((bitlen w : Int) - 1)).toNat = 1077 - bitlen w := by omega
      rw [ht2]
      calc R < 2 ^ 53 := hR53
        _ ≤ 2 ^ (1077 - bitlen w) := Nat.pow_le_pow_right (by omega) (by omega)
    refine ⟨R, (bitlen w : Int) - 53, ?_, ⟨hR52, le_of_lt hR53, by omega, ?_⟩, hR53, ?_⟩
    · rw [flPosRat_eval (by omega) hlog (by omega)]
      have hsh : ¬ ((0 : Int) ≤ 52 - ((bitlen w : Int) - 1)) := by omega
      rw [if_neg hsh]
      have ht : (-(52 - ((bitlen w : Int) - 1))).toNat = bitlen w - 53 := by omega
      rw [ht, one_mul, hRdef, hov]
      have he : (bitlen w : Int) - 1 - 52 = (bitlen w : Int) - 53 := by ring
      rw [he]
      simp
    · rw [show (bitlen w : Int) - 53 + 52 = (bitlen w : Int) - 1 by ring]
      exact hov
    · rw [pyRoundD_nat]
      have he : (0 : Int) ≤ (bitlen w : Int) - 53 := by omega
      rw [if_pos he]
      have ht : ((bitlen w : Int) - 53).toNat = bitlen w - 53 := by omega
      rw [ht]
      exact_mod_cast congrArg (Nat.cast (R := Int)) hmulback

theorem pyRound_GoodDy {r : Nat} {e : Int} (hg : GoodDy r e) (hr53 : r < 2 ^ 53) :
    ∃ w : Nat, pyRoundD ⟨(r : Int), e⟩ = (w : Int) ∧ 1 ≤ w ∧ RepDouble w := by
  obtain ⟨h52, _, hlo, hov⟩ := hg
  obtain ⟨hov1, hov2⟩ := overflowChk_false_iff.mp hov
  rw [pyRoundD_nat]
  by_cases he : 0 ≤ e
  · refine ⟨r * 2 ^ e.toNat, by rw [if_pos he], ?_, r, e.toNat, rfl, ?_, hr53, ?_⟩
    · have hr1 : 1 ≤ r := le_trans Nat.one_le_two_pow h52
      exact Nat.mul_pos (by omega) (Nat.pos_pow_of_pos _ (by omega))
    · exact le_trans Nat.one_le_two_pow h52
    · have ht : ((1076 : Int) - (e + 52)).toNat = 1024 - e.toNat := by omega
      rw [ht] at hov2
      calc r * 2 ^ e.toNat < 2 ^ (1024 - e.toNat) * 2 ^ e.toNat :=
            (Nat.mul_lt_mul_right (Nat.pos_pow_of_pos _ (by omega))).mpr hov2
        _ = 2 ^ 1024 := by
            rw [← pow_add]
            congr 1
            omega
  · rw [if_neg he]
    set k := (-e).toNat with hkdef
    have hk1 : 1 ≤ k := by omega
    have hk52 : k ≤ 52 := by omega
    have hkpos : (0 : Nat) < 2 ^ k := Nat.pos_pow_of_pos _ (by omega)
    refine ⟨rheDiv r (2 ^ k), rfl, ?_, rheDiv r (2 ^ k), 0, by ring, ?_, ?_, ?_⟩
    · have hdiv : 2 ^ (52 - k) ≤ r / 2 ^ k := by
        rw [Nat.le_div_iff_mul_le hkpos, ← pow_add]
        calc (2 : Nat) ^ (52 - k + k) = 2 ^ 52 := by
              congr 1
              omega
          _ ≤ r := h52
      have h1 : (1 : Nat) ≤ 2 ^ (52 - k) := Nat.one_le_two_pow
      have := le_rheDiv r (2 ^ k)
      omega
    · have hdiv : 2 ^ (52 - k) ≤ r / 2 ^ k := by
        rw [Nat.le_div_iff_mul_le hkpos, ← pow_add]
        calc (2 : Nat) ^ (52 - k + k) = 2 ^ 52 := by
              congr 1
              omega
          _ ≤ r := h52
      have h1 : (1 : Nat) ≤ 2 ^ (52 - k) := Nat.one_le_two_pow
      have := le_rheDiv r (2 ^ k)
      omega
    · have hdivlt : r / 2 ^ k < 2 ^ 52 := by
        rw [Nat.div_lt_iff_lt_mul hkpos]
        calc r < 2 ^ 53 := hr53
          _ ≤ 2 ^ 52 * 2 ^ k := by
              rw [← pow_add]
              exact Nat.pow_le_pow_right (by omega) (by omega)
      have := rheDiv_le r (2 ^ k)
      calc rheDiv r (2 ^ k) ≤ r / 2 ^ k + 1 := this
        _ < 2 ^ 53 := by
            have : (2 : Nat) ^ 52 < 2 ^ 53 := by norm_num
            omega
    · have hdivlt : r / 2 ^ k < 2 ^ 52 := by
        rw [Nat.div_lt_iff_lt_mul hkpos]
        calc r < 2 ^ 53 := hr53
          _ ≤ 2 ^ 52 * 2 ^ k := by
              rw [← pow_add]
              exact Nat.pow_le_pow_right (by omega) (by omega)
      have h1 := rheDiv_le r (2 ^ k)
      have h2 : (2 : Nat) ^ 53 ≤ 2 ^ 1024 := Nat.pow_le_pow_right (by omega) (by omega)
      have : (2 : Nat) ^ 52 < 2 ^ 53 := by norm_num
      omega

/-! ### Lemmas: the numeric pipeline at multiplier 1.0 -/

theorem intGroup_natCast (w : Nat) : intGroup (w : Int) = natGroup w := by
  unfold intGroup
  rw [if_neg (by omega)]
  congr 1

theorem dyMul_one (d : Dy) : dyMul d dyOne = d := by
  cases d
  simp [dyMul, dyOne]

theorem flDy_natCast {r : Nat} (hr : 1 ≤ r) (e : Int) :
    flDy ⟨(r : Int), e⟩ = flDyPos r e := by
  have h1 : ¬ (((r : Nat) : Int) = 0) := by
    simp only [Nat.cast_eq_zero]
    omega
  have h2 : ¬ (((r : Nat) : Int) < 0) := by
    simp only [not_lt]
    exact Int.natCast_nonneg r
  unfold flDy
  dsimp only
  rw [if_neg h1, if_neg h2, Int.natAbs_ofNat]

theorem flDy_GoodDy {r : Nat} {e : Int} (hg : GoodDy r e) :
    ∃ (r2 : Nat) (e2 : Int), flDy ⟨(r : Int), e⟩ = some ⟨(r2 : Int), e2⟩ ∧ GoodDy r2 e2 ∧
      r2 < 2 ^ 53 ∧ pyRoundD ⟨(r2 : Int), e2⟩ = pyRoundD ⟨(r : Int), e⟩ := by
  obtain ⟨h52, h53, hlo, hov⟩ := hg
  have hr1 : 1 ≤ r := le_trans Nat.one_le_two_pow h52
  rw [flDy_natCast hr1]
  by_cases hcase : r < 2 ^ 53
  · exact ⟨r, e, flDyPos_fix h52 hcase hlo hov, ⟨h52, h53, hlo, hov⟩, hcase, rfl⟩
  · have hr53 : r = 2 ^ 53 := by omega
    subst hr53
    obtain ⟨hov1, hov2⟩ := overflowChk_false_iff.mp hov
    have he970 : e ≤ 970 := by
      by_contra hgt
      have hm := (Nat.pow_lt_pow_iff_right (show 1 < 2 by omega)).mp hov2
      omega
    refine ⟨2 ^ 52, e + 1, flDyPos_fix53 hlo hov, ⟨le_rfl, by norm_num, by omega, ?_⟩,
      by norm_num, pyRoundD_53_shift hlo⟩
    rw [overflowChk_false_iff]
    refine ⟨by omega, ?_⟩
    have ht : ((1076 : Int) - (e + 1 + 52)).toNat = (1023 - e).toNat := by omega
    rw [ht]
    have h52lt : (52 : Nat) < (1023 - e).toNat := by omega
    exact (Nat.pow_lt_pow_iff_right (show 1 < 2 by omega)).mpr h52lt

theorem flPosRat_zero : flPosRat 0 1 = some ⟨0, 0⟩ := by
  unfold flPosRat
  simp

theorem flDy_zero_one : flDy (dyMul ⟨0, 0⟩ dyOne) = some ⟨0, 0⟩ := by
  rw [dyMul_one]
  unfold flDy
  simp

theorem pyRoundD_zero : pyRoundD ⟨0, 0⟩ = 0 := by
  unfold pyRoundD
  norm_num

/-- At multiplier 1.0 the numeric pipeline maps a digit string with value
`w` that is zero or exactly representable to
`{prefix}{grouped w} {currency}`, and never raises. -/
theorem markupCore_one_fix {w : Nat} (hw : w = 0 ∨ (1 ≤ w ∧ RepDouble w))
    {raw : List Char} (hraw : natOfDigits raw = w) (text p c : String) :
    markupCore text raw p c dyOne = some (p ++ natGroup w ++ " " ++ c) := by
  unfold markupCore
  rw [hraw]
  rcases hw with h0 | ⟨hw1, hrep⟩
  · subst h0
    rw [flPosRat_zero]
    dsimp only
    rw [flDy_zero_one]
    dsimp only
    rw [pyRoundD_zero]
    rw [show (0 : Int) = ((0 : Nat) : Int) by norm_num, intGroup_natCast]
  · obtain ⟨r, e, hfl, hgood, hr53, hround⟩ := flPosRat_repr hw1 hrep
    rw [hfl]
    dsimp only
    rw [dyMul_one]
    obtain ⟨r2, e2, hflDy, _, _, hround2⟩ := flDy_GoodDy hgood
    rw [hflDy]
    dsimp only
    rw [hround2, hround, intGroup_natCast]

/-- At multiplier 1.0, a successful run of the numeric pipeline produces
`{prefix}{grouped w} {currency}` for a value `w` that is zero or exactly
representable.  (The only failure is overflow of `float(raw_val)`.) -/
theorem markupCore_one_shape {raw : List Char} {text p c out : String}
    (h : markupCore text raw p c dyOne = some out) :
    ∃ w : Nat, out = p ++ natGroup w ++ " " ++ c ∧ (w = 0 ∨ (1 ≤ w ∧ RepDouble w)) := by
  unfold markupCore at h
  by_cases hn0 : natOfDigits raw = 0
  · rw [hn0, flPosRat_zero] at h
    dsimp only at h
    rw [flDy_zero_one] at h
    dsimp only at h
    rw [pyRoundD_zero] at h
    refine ⟨0, ?_, Or.inl rfl⟩
    rw [show (0 : Int) = ((0 : Nat) : Int) by norm_num, intGroup_natCast] at h
    exact (Option.some_inj.mp h).symm
  · cases hfl : flPosRat (natOfDigits raw) 1 with
    | none =>
        rw [hfl] at h
        dsimp only at h
        rw [if_neg (by norm_num [dyOne])] at h
        exact absurd h (by simp)
    | some d =>
        rw [hfl] at h
        dsimp only at h
        obtain ⟨r, e, hd, hgood⟩ := flPosRat_one_shape (by omega) hfl
        subst hd
        rw [dyMul_one] at h
        obtain ⟨r2, e2, hflDy, hgood2, hr53, hround2⟩ := flDy_GoodDy hgood
        rw [hflDy] at h
        dsimp only at h
        obtain ⟨w, hw, hw1, hrep⟩ := pyRound_GoodDy hgood2 hr53
        rw [hw, intGroup_natCast] at h
        exact ⟨w, (Option.some_inj.mp h).symm, Or.inr ⟨hw1, hrep⟩⟩

/-! ### Lemmas: the mutation passes -/

theorem passOps_cons_noop {f : Row → Option (List Op)} {r : Row} (l : List Row)
    (h : f r = some []) : passOps f (r :: l) = passOps f l := by
  show (match f r with
    | none => none
    | some ops =>
      match passOps f l with
      | none => none
      | some rest => some (ops ++ rest)) = passOps f l
  rw [h]
  cases passOps f l <;> rfl

theorem passOps_append (f : Row → Option (List Op)) (l1 l2 : List Row) :
    passOps f (l1 ++ l2) =
      (passOps f l1).bind (fun a => (passOps f l2).map (fun b => a ++ b)) := by
  induction l1 with
  | nil =>
      simp only [List.nil_append]
      cases passOps f l2 <;> rfl
  | cons r rs ih =>
      have hlhs : passOps f ((r :: rs) ++ l2) = (match f r with
        | none => none
        | some ops =>
            match passOps f (rs ++ l2) with
            | none => none
            | some rest => some (ops ++ rest)) := rfl
      have hrhs : passOps f (r :: rs) = (match f r with
        | none => none
        | some ops =>
            match passOps f rs with
            | none => none
            | some rest => some (ops ++ rest)) := rfl
      rw [hlhs, hrhs, ih]
      cases f r with
      | none => rfl
      | some l =>
          cases passOps f rs with
          | none => rfl
          | some a =>
              cases passOps f l2 with
              | none => rfl
              | some b =>
                  show some (l ++ (a ++ b)) = some ((l ++ a) ++ b)
                  rw [List.append_assoc]

theorem passOps_mem {f : Row → Option (List Op)} :
    ∀ {rows : List Row} {ops : List Op}, passOps f rows = some ops →
      ∀ op ∈ ops, ∃ r ∈ rows, ∃ l, f r = some l ∧ op ∈ l := by
  intro rows
  induction rows with
  | nil =>
      intro ops h op hop
      cases h
      cases hop
  | cons r rs ih =>
      intro ops h op hop
      unfold passOps at h
      cases hf : f r with
      | none => rw [hf] at h; cases h
      | some l =>
          rw [hf] at h
          cases hrec : passOps f rs with
          | none => rw [hrec] at h; cases h
          | some rest =>
              rw [hrec] at h
              cases h
              rcases List.mem_append.mp hop with hin | hin
              · exact ⟨r, List.mem_cons_self r rs, l, hf, hin⟩
              · obtain ⟨r2, hr2, l2, hf2, hop2⟩ := ih hrec op hin
                exact ⟨r2, List.mem_cons_of_mem r hr2, l2, hf2, hop2⟩

theorem passOps_mem_rev {f : Row → Option (List Op)} :
    ∀ {rows : List Row} {ops : List Op}, passOps f rows = some ops →
      ∀ r ∈ rows, ∀ l, f r = some l → ∀ op ∈ l, op ∈ ops := by
  intro rows
  induction rows with
  | nil =>
      intro ops _ r hr
      cases hr
  | cons r0 rs ih =>
      intro ops h r hr l hl op hop
      unfold passOps at h
      cases hf : f r0 with
      | none => rw [hf] at h; cases h
      | some l0 =>
          rw [hf] at h
          cases hrec : passOps f rs with
          | none => rw [hrec] at h; cases h
          | some rest =>
              rw [hrec] at h
              cases h
              cases hr with
              | head =>
                  rw [hf] at hl
                  cases hl
                  exact List.mem_append_left _ hop
              | tail _ htail =>
                  exact List.mem_append_right _ (ih hrec r htail l hl op hop)

theorem eraseOpsForRow_eq {prices : List Item} {r : Row} {it : Item}
    (hg : prices.get? r.id = some it) :
    eraseOpsForRow prices r =
      some (if r.newText ≠ it.original_text then
        [Op.fillRect (pageRef it) it.bbox (1, 1, 1)] else []) := by
  unfold eraseOpsForRow
  rw [hg]

theorem eraseOpsForRow_none {prices : List Item} {r : Row}
    (hg : prices.get? r.id = none) : eraseOpsForRow prices r = none := by
  unfold eraseOpsForRow
  rw [hg]

theorem insertOpsForRow_eq {prices : List Item} {r : Row} {it : Item}
    (hg : prices.get? r.id = some it) :
    insertOpsForRow prices r =
      (if r.newText ≠ it.original_text then
        match applyMarkup r.newText it.pfx it.currency dyOne with
        | none => none
        | some dt =>
            some [Op.insText (pageRef it) ⟨it.bbox.x0, it.origin.y⟩ dt it.font_size 0]
      else some []) := by
  unfold insertOpsForRow
  rw [hg]

theorem eraseOpsForRow_shape {prices : List Item} {r : Row} {l : List Op}
    (h : eraseOpsForRow prices r = some l) :
    ∀ op ∈ l, ∃ it, prices.get? r.id = some it ∧ r.newText ≠ it.original_text ∧
      op = Op.fillRect (pageRef it) it.bbox (1, 1, 1) := by
  cases hg : prices.get? r.id with
  | none => rw [eraseOpsForRow_none hg] at h; cases h
  | some it =>
      rw [eraseOpsForRow_eq hg] at h
      intro op hop
      have hl := Option.some_inj.mp h
      subst hl
      by_cases hne : r.newText ≠ it.original_text
      · rw [if_pos hne, List.mem_singleton] at hop
        exact ⟨it, rfl, hne, hop⟩
      · rw [if_neg hne] at hop
        cases hop

theorem insertOpsForRow_shape {prices : List Item} {r : Row} {l : List Op}
    (h : insertOpsForRow prices r = some l) :
    ∀ op ∈ l, ∃ it dt, prices.get? r.id = some it ∧ r.newText ≠ it.original_text ∧
      applyMarkup r.newText it.pfx it.currency dyOne = some dt ∧
      op = Op.insText (pageRef it) ⟨it.bbox.x0, it.origin.y⟩ dt it.font_size 0 := by
  cases hg : prices.get? r.id with
  | none =>
      unfold insertOpsForRow at h
      rw [hg] at h
      cases h
  | some it =>
      rw [insertOpsForRow_eq hg] at h
      by_cases hne : r.newText ≠ it.original_text
      · rw [if_pos hne] at h
        cases hm : applyMarkup r.newText it.pfx it.currency dyOne with
        | none => rw [hm] at h; cases h
        | some dt =>
            rw [hm] at h
            have hl := Option.some_inj.mp h
            subst hl
            intro op hop
            rw [List.mem_singleton] at hop
            exact ⟨it, dt, rfl, hne, hm, hop⟩
      · rw [if_neg hne] at h
        have hl := Option.some_inj.mp h
        subst hl
        intro op hop
        cases hop

theorem genOps_split {prices : List Item} {rows : List Row} {ops : List Op}
    (h : genOps prices rows = some ops) :
    ∃ p1 p2, ops = p1 ++ p2 ∧ passOps (eraseOpsForRow prices) rows = some p1 ∧
      passOps (insertOpsForRow prices) rows = some p2 := by
  unfold genOps at h
  cases h1 : passOps (eraseOpsForRow prices) rows with
  | none => rw [h1] at h; cases h
  | some p1 =>
      rw [h1] at h
      cases h2 : passOps (insertOpsForRow prices) rows with
      | none => rw [h2] at h; cases h
      | some p2 =>
          rw [h2] at h
          cases h
          exact ⟨p1, p2, rfl, rfl, rfl⟩

theorem renderAt_of_black {ops : List Op} {pg : Int} {pt : Pt}
    (h : ∀ o ∈ ops, paintOf o = Pix.black) :
    ops.foldl (fun acc op => if covers op pg pt then paintOf op else acc) Pix.black
      = Pix.black := by
  induction ops with
  | nil => rfl
  | cons o os ih =>
      simp only [List.foldl_cons]
      have ho := h o (List.mem_cons_self o os)
      by_cases hc : covers o pg pt
      · rw [if_pos hc, ho]
        exact ih (fun o2 ho2 => h o2 (List.mem_cons_of_mem o ho2))
      · rw [if_neg hc]
        exact ih (fun o2 ho2 => h o2 (List.mem_cons_of_mem o ho2))

theorem renderAt_black {ops1 ops2 : List Op} {op : Op} {pg : Int} {pt : Pt}
    (hc : covers op pg pt = true) (hp : paintOf op = Pix.black)
    (h2 : ∀ o ∈ ops2, paintOf o = Pix.black) :
    renderAt (ops1 ++ op :: ops2) pg pt = Pix.black := by
  unfold renderAt
  rw [List.foldl_append, List.foldl_cons, if_pos hc, hp]
  exact renderAt_of_black h2

theorem renderAt_base {ops : List Op} {pg : Int} {pt : Pt}
    (h : ∀ op ∈ ops, covers op pg pt = false) : renderAt ops pg pt = Pix.base := by
  unfold renderAt
  induction ops with
  | nil => rfl
  | cons o os ih =>
      simp only [List.foldl_cons]
      rw [if_neg (by rw [h o (List.mem_cons_self o os)]; exact Bool.false_ne_true)]
      exact ih (fun o2 ho2 => h o2 (List.mem_cons_of_mem o ho2))

theorem buildRowsFrom_spec (mult : Dy) :
    ∀ (prices : List Item) (k : Nat) (rows : List Row),
      buildRowsFrom mult k prices = some rows →
      rows.length = prices.length ∧
      ∀ i r, rows.get? i = some r → r.id = k + i ∧
        ∃ it, prices.get? i = some it ∧ r.page = it.page ∧
          r.originalText = it.original_text ∧
          applyMarkup it.original_text it.pfx it.currency mult = some r.newText := by
  intro prices
  induction prices with
  | nil =>
      intro k rows h
      cases h
      exact ⟨rfl, fun i r hir => by cases i <;> cases hir⟩
  | cons it rest ih =>
      intro k rows h
      unfold buildRowsFrom at h
      cases hb : buildRow mult k it with
      | none => rw [hb] at h; cases h
      | some r0 =>
          rw [hb] at h
          cases hrec : buildRowsFrom mult (k + 1) rest with
          | none => rw [hrec] at h; cases h
          | some rs =>
              rw [hrec] at h
              cases h
              obtain ⟨hlen, hspec⟩ := ih (k + 1) rs hrec
              refine ⟨by simp [hlen], ?_⟩
              intro i r hir
              cases i with
              | zero =>
                  simp only [List.get?_cons_zero, Option.some_inj] at hir
                  subst hir
                  unfold buildRow at hb
                  cases hm : applyMarkup it.original_text it.pfx it.currency mult with
                  | none => rw [hm] at hb; cases hb
                  | some nt =>
                      rw [hm] at hb
                      simp only [Option.map_some', Option.some_inj] at hb
                      subst hb
                      exact ⟨by simp, it, rfl, rfl, rfl, hm⟩
              | succ i2 =>
                  simp only [List.get?_cons_succ] at hir
                  obtain ⟨hid, it2, hit2, hrest⟩ := hspec i2 r hir
                  exact ⟨by omega, it2, hit2, hrest⟩

theorem applyEdits_get {rows : List Row} {ts : List String} :
    ∀ {i : Nat} {r2 : Row}, (applyEdits rows ts).get? i = some r2 →
      ∃ r t, rows.get? i = some r ∧ ts.get? i = some t ∧ r2 = { r with newText := t } := by
  induction rows generalizing ts with
  | nil =>
      intro i r2 h
      cases ts <;> cases i <;> cases h
  | cons r rs ih =>
      intro i r2 h
      cases ts with
      | nil => cases i <;> cases h
      | cons t tsrest =>
          cases i with
          | zero =>
              simp only [applyEdits, List.zipWith_cons_cons, List.get?_cons_zero,
                Option.some_inj] at h
              exact ⟨r, t, rfl, rfl, h.symm⟩
          | succ i2 =>
              simp only [applyEdits, List.zipWith_cons_cons, List.get?_cons_succ] at h
              obtain ⟨r3, t3, h1, h2, h3⟩ := ih h
              exact ⟨r3, t3, h1, h2, h3⟩

/-! ### String-level glue -/

theorem string_data_append (s t : String) : (s ++ t).data = s.data ++ t.data := rfl

theorem noDigitStr_forall {s : String} (h : noDigitStr s = true) :
    ∀ ch ∈ s.data, isDigitChar ch = false := by
  intro ch hch
  have := List.all_eq_true.mp h ch hch
  simpa using this

theorem valSearch_of_hasDigit {s : String} (h : hasDigitStr s = true) :
    ∃ r, valSearch s.data = some r := by
  obtain ⟨ch, hc, hd⟩ := List.any_eq_true.mp h
  exact valSearch_isSome_of_digit hc hd

theorem applyMarkup_noDigit {s : String} (h : hasDigitStr s = false) (p c : String)
    (m : Dy) : applyMarkup s p c m = some s := by
  unfold applyMarkup
  have hn : valSearch s.data = none := by
    apply valSearch_none_of_noDigit
    intro ch hch
    by_contra hd
    rw [Bool.not_eq_false] at hd
    have : hasDigitStr s = true := List.any_eq_true.mpr ⟨ch, hch, hd⟩
    rw [h] at this
    cases this
  rw [hn]

theorem valSearch_output (w : Nat) {p c : String} (hp : noDigitStr p = true)
    (hc : noDigitStr c = true) :
    valSearch (p ++ natGroup w ++ " " ++ c).data
      = some ((natGroup w).data, ' ' :: c.data) := by
  have hdata : (p ++ natGroup w ++ " " ++ c).data
      = p.data ++ ((natGroup w).data ++ (' ' :: c.data)) := by
    show ((p.data ++ (natGroup w).data) ++ (' ' :: [])) ++ c.data = _
    simp
  rw [hdata, valSearch_append_noDigit (noDigitStr_forall hp)]
  obtain ⟨F, G, hFG, hFd, h1, h3, hGc⟩ := natGroup_decomp w
  rw [hFG]
  exact valSearch_canonical hFd h1 h3 hGc rfl
    (maxGroups_space_noDigit (noDigitStr_forall hc))

/-! ### Claim theorems -/

/-- **C1.** `apply_markup`'s value pattern always consumes a maximal digit
run — whatever it matches is never followed by a further digit (the
effect of the `(?!\d)` lookahead together with the `\d+` fallback) — and
concretely, on "Стоимость 1600€" it matches "1600", not "160", so the
markup scales 1600 (5% markup gives 1 680, not 168). -/
theorem C1_maximal_digit_run :
    (∀ s mt rest, valSearch s = some (mt, rest) → noDigitAt rest = true) ∧
    valSearch "Стоимость 1600€".data = some ("1600".data, "€".data) ∧
    applyMarkup "Стоимость 1600€" "Стоимость " "€" lit105 = some "Стоимость 1 680 €" := by
  refine ⟨?_, by decide, by decide⟩
  intro s mt rest h
  exact valSearch_rest h

/-- Witness for C1: the general maximality clause applied at the concrete
text "Стоимость 1600€". -/
theorem C1_maximal_digit_run_witness : noDigitAt "€".data = true :=
  C1_maximal_digit_run.1 "Стоимость 1600€".data "1600".data "€".data (by decide)

/-- **C3** (the code violates this claim).  `apply_markup` is not total:
on a digit run whose value exceeds the double range (here 330 nines),
`float(raw_val)` is `inf`, `round(inf * 1.05)` raises `OverflowError`,
and the `except ValueError:` clause does not catch it, so the exception
escapes (modelled as `none`).  The identity fallback works as specified
when no numeric run exists (second conjunct). -/
theorem C3_overflow_escapes :
    applyMarkup (String.mk (List.replicate 330 '9' ++ ['€'])) "" "€" lit105 = none ∧
    applyMarkup "цена договорная" "" "€" lit105 = some "цена договорная" := by
  constructor
  · decide
  · decide

/-- **C6.** With multiplier 1.0 (the exact double `1.0`), `apply_markup`
is idempotent: whatever it produces from any input is a fixed point.
The label and currency arguments are those captured by the token grammar,
which are digit-free (`Стоимость`-labels and `€`).  This covers the
claim: an already-canonically-formatted price string is in particular in
the image of the transform. -/
theorem C6_unity_idempotent {x p c y : String} (hp : noDigitStr p = true)
    (hc : noDigitStr c = true) (h : applyMarkup x p c dyOne = some y) :
    applyMarkup y p c dyOne = some y := by
  unfold applyMarkup at h
  cases hs : valSearch x.data with
  | none =>
      rw [hs] at h
      have h2 : some x = some y := h
      have hxy := Option.some_inj.mp h2
      subst hxy
      unfold applyMarkup
      rw [hs]
  | some mr =>
      rw [hs] at h
      obtain ⟨mt, rest⟩ := mr
      have h2 : markupCore x (stripSeps mt) p c dyOne = some y := h
      obtain ⟨w, hy, hrep⟩ := markupCore_one_shape h2
      subst hy
      unfold applyMarkup
      rw [valSearch_output w hp hc]
      exact markupCore_one_fix hrep (stripSeps_natGroup w) _ p c

/-- Witness for C6 at a canonical price string: "Стоимость 1 600 €" is a
fixed point of the unity transform. -/
theorem C6_unity_idempotent_witness :
    applyMarkup "Стоимость 1 600 €" "Стоимость " "€" dyOne = some "Стоимость 1 600 €" :=
  C6_unity_idempotent (x := "Стоимость 1 600 €") (by decide) (by decide) (by decide)

/-- **C7.** The two end-to-end examples of the spec, with the exact
doubles denoted by `1.05` and `1.10`: "Стоимость 35 000 €" with 5%
markup gives "Стоимость 36 750 €", and "12€" with 10% markup gives
"13 €" (12 · 1.10 = 13.200000000000001 in doubles, rounding to 13, with
exactly one space before the currency). -/
theorem C7_end_to_end :
    applyMarkup "Стоимость 35 000 €" "Стоимость " "€" lit105 = some "Стоимость 36 750 €" ∧
    applyMarkup "12€" "" "€" lit110 = some "13 €" := by
  constructor
  · decide
  · decide

/-- **C8.** The page grammar matches both the ungrouped "1600 €" and the
grouped "1 600 €" as prices (value groups "1600" and "1 600"), both
parse to 1600 after separator stripping, and `apply_markup` therefore
maps the two texts to identical output for every label, currency and
multiplier. -/
theorem C8_grouped_ungrouped_agree :
    priceSearch "1600 €".data = some ([], "1600".data, "1600 €".data) ∧
    priceSearch "1 600 €".data = some ([], "1 600".data, "1 600 €".data) ∧
    natOfDigits (stripSeps "1600".data) = 1600 ∧
    natOfDigits (stripSeps "1 600".data) = 1600 ∧
    ∀ (p c : String) (mult : Dy),
      applyMarkup "1600 €" p c mult = applyMarkup "1 600 €" p c mult := by
  refine ⟨by decide, by decide, by decide, by decide, ?_⟩
  intro p c mult
  have h1 : valSearch "1600 €".data = some ("1600".data, " €".data) := by decide
  have h2 : valSearch "1 600 €".data = some ("1 600".data, " €".data) := by decide
  unfold applyMarkup
  rw [h1, h2]
  show markupCore "1600 €" (stripSeps "1600".data) p c mult
      = markupCore "1 600 €" (stripSeps "1 600".data) p c mult
  have h3 : stripSeps "1600".data = "1600".data := by decide
  have h4 : stripSeps "1 600".data = "1600".data := by decide
  rw [h3, h4]
  unfold markupCore
  have h5 : flPosRat (natOfDigits "1600".data) 1 = some ⟨7036874417766400, -42⟩ := by decide
  rw [h5]

/-- **C10** (amended).  The display text recomputed by the planner is
rebuilt entirely from the occurrence's own stored label and currency:
whenever the edited text contains a digit and the unity pipeline
succeeds, the output is exactly `{label}{regrouped digits} {currency}`;
an edit with no digit at all is used literally.  Concretely, "N/A 5"
becomes "Стоимость 5 €" (the user's own words are discarded) while "N/A"
is kept verbatim. -/
theorem C10_display_text_rebuilt :
    (∀ text p c out, hasDigitStr text = true → applyMarkup text p c dyOne = some out →
      ∃ w : Nat, out = p ++ natGroup w ++ " " ++ c) ∧
    (∀ text p c, hasDigitStr text = false → applyMarkup text p c dyOne = some text) ∧
    applyMarkup "N/A 5" "Стоимость " "€" dyOne = some "Стоимость 5 €" ∧
    applyMarkup "N/A" "Стоимость " "€" dyOne = some "N/A" := by
  refine ⟨?_, ?_, by decide, by decide⟩
  · intro text p c out hd h
    unfold applyMarkup at h
    obtain ⟨⟨mt, rest⟩, hs⟩ := valSearch_of_hasDigit hd
    rw [hs] at h
    have h2 : markupCore text (stripSeps mt) p c dyOne = some out := h
    obtain ⟨w, hy, _⟩ := markupCore_one_shape h2
    exact ⟨w, hy⟩
  · intro text p c hd
    exact applyMarkup_noDigit hd p c dyOne

/-- Witness for C10: both general clauses applied at concrete inputs. -/
theorem C10_display_text_rebuilt_witness :
    (∃ w : Nat, "Стоимость 5 €" = "Стоимость " ++ natGroup w ++ " " ++ "€") ∧
    applyMarkup "N/A" "Стоимость " "€" dyOne = some "N/A" :=
  ⟨C10_display_text_rebuilt.1 "N/A 5" "Стоимость " "€" "Стоимость 5 €" (by decide)
    (by decide),
   C10_display_text_rebuilt.2.1 "N/A" "Стоимость " "€" (by decide)⟩

/-- Counterexample to C10 as frozen: an edited text consisting of a 1
followed by 309 zeros (and a currency sign) contains digits, yet the
planner's recomputation does not produce `{label}{regrouped} {currency}`
— it raises `OverflowError` (modelled as `none`), because `float` of the
310-digit run overflows to `inf`. -/
theorem C10_display_text_rebuilt_cex :
    hasDigitStr (String.mk ('1' :: (List.replicate 309 '0' ++ ['€']))) = true ∧
    applyMarkup (String.mk ('1' :: (List.replicate 309 '0' ++ ['€']))) "" "€" dyOne
      = none := by
  constructor
  · decide
  · decide

/-- **C2.** The generation phase is two full passes in strict order:
in the emitted drawing-call sequence every whiteout rectangle precedes
every text insertion (never interleaved per item), and consequently the
replacement text of every changed occurrence is visible at its anchor
after the mutation — no whiteout is painted over it. -/
theorem C2_erase_before_insert (prices : List Item) (rows : List Row) (ops : List Op)
    (h : genOps prices rows = some ops) :
    (∀ i j pg rc col pg2 pt t sz c2,
      ops.get? i = some (Op.fillRect pg rc col) →
      ops.get? j = some (Op.insText pg2 pt t sz c2) → i < j) ∧
    (∀ r ∈ rows, ∀ it dt, prices.get? r.id = some it → r.newText ≠ it.original_text →
      applyMarkup r.newText it.pfx it.currency dyOne = some dt →
      renderAt ops (pageRef it) ⟨it.bbox.x0, it.origin.y⟩ = Pix.black) := by
  obtain ⟨p1, p2, hops, hp1, hp2⟩ := genOps_split h
  subst hops
  have hp1fill : ∀ op ∈ p1, ∃ pg rc col, op = Op.fillRect pg rc col := by
    intro op hop
    obtain ⟨r, _, l, hf, hopl⟩ := passOps_mem hp1 op hop
    obtain ⟨it, _, _, hope⟩ := eraseOpsForRow_shape hf op hopl
    exact ⟨_, _, _, hope⟩
  have hp2ins : ∀ op ∈ p2, ∃ pg pt t sz c2, op = Op.insText pg pt t sz c2 := by
    intro op hop
    obtain ⟨r, _, l, hf, hopl⟩ := passOps_mem hp2 op hop
    obtain ⟨it, dt, _, _, _, hope⟩ := insertOpsForRow_shape hf op hopl
    exact ⟨_, _, _, _, _, hope⟩
  constructor
  · intro i j pg rc col pg2 pt t sz c2 hi hj
    have hilt : i < p1.length := by
      by_contra hge
      push_neg at hge
      rw [List.get?_append_right hge] at hi
      have hmem := List.get?_mem hi
      obtain ⟨_, _, _, _, _, he⟩ := hp2ins _ hmem
      cases he
    have hjge : p1.length ≤ j := by
      by_contra hlt
      push_neg at hlt
      rw [List.get?_append hlt] at hj
      have hmem := List.get?_mem hj
      obtain ⟨_, _, _, he⟩ := hp1fill _ hmem
      cases he
    omega
  · intro r hr it dt hit hne hm
    have hins : insertOpsForRow prices r =
        some [Op.insText (pageRef it) ⟨it.bbox.x0, it.origin.y⟩ dt it.font_size 0] := by
      rw [insertOpsForRow_eq hit, if_pos hne, hm]
    have hop : Op.insText (pageRef it) ⟨it.bbox.x0, it.origin.y⟩ dt it.font_size 0 ∈ p2 :=
      passOps_mem_rev hp2 r hr _ hins _ (List.mem_singleton.mpr rfl)
    obtain ⟨l1, l2, hsplit⟩ := List.append_of_mem hop
    rw [hsplit]
    rw [show p1 ++ (l1 ++ Op.insText (pageRef it) ⟨it.bbox.x0, it.origin.y⟩ dt
      it.font_size 0 :: l2) = (p1 ++ l1) ++ Op.insText (pageRef it)
      ⟨it.bbox.x0, it.origin.y⟩ dt it.font_size 0 :: l2 by simp]
    apply renderAt_black
    · simp [covers]
    · rfl
    · intro o ho
      have homem : o ∈ p2 := by
        rw [hsplit]
        exact List.mem_append_right l1 (List.mem_cons_of_mem _ ho)
      obtain ⟨_, _, _, _, _, he⟩ := hp2ins o homem
      rw [he]
      rfl

/-- Witness for C2: two changed occurrences with overlapping boxes; after
the whole op sequence, the first occurrence's replacement anchor shows
text (black), not whiteout. -/
theorem C2_erase_before_insert_witness :
    renderAt [Op.fillRect 0 ⟨0,0,10,10⟩ (1,1,1), Op.fillRect 0 ⟨6,0,16,10⟩ (1,1,1),
      Op.insText 0 ⟨0,5⟩ "5 €" 9 0, Op.insText 0 ⟨6,5⟩ "8 €" 9 0]
      (pageRef ⟨1,"4€","","4","€",⟨0,0,10,10⟩,⟨0,5⟩,9,0⟩) ⟨0,5⟩ = Pix.black := by
  exact (C2_erase_before_insert
    [⟨1,"4€","","4","€",⟨0,0,10,10⟩,⟨0,5⟩,9,0⟩,
     ⟨1,"7€","","7","€",⟨6,0,16,10⟩,⟨6,5⟩,9,0⟩]
    [⟨0,1,"4€","5€"⟩, ⟨1,1,"7€","8€"⟩] _ (by decide)).2
    ⟨0,1,"4€","5€"⟩ (by decide) ⟨1,"4€","","4","€",⟨0,0,10,10⟩,⟨0,5⟩,9,0⟩ "5 €"
    (by decide) (by decide) (by decide)

/-- **C4** (amended).  Every text-insertion call produced by the mutator
draws some changed row's recomputed display text at the point whose x
coordinate is the occurrence's *bounding-box left edge* (`rect.x0`) and
whose y coordinate is the baseline origin's y (`origin[1]`), with the
occurrence's original font size and color 0 (black).  (The claim's
"both x and y from text_origin" does not hold: see the counterexample.) -/
theorem C4_insert_geometry (prices : List Item) (rows : List Row) (ops : List Op)
    (h : genOps prices rows = some ops) :
    ∀ op ∈ ops, ∀ pg pt t sz col, op = Op.insText pg pt t sz col →
      ∃ r ∈ rows, ∃ it dt, prices.get? r.id = some it ∧
        r.newText ≠ it.original_text ∧
        applyMarkup r.newText it.pfx it.currency dyOne = some dt ∧
        op = Op.insText (pageRef it) ⟨it.bbox.x0, it.origin.y⟩ dt it.font_size 0 := by
  obtain ⟨p1, p2, hops, hp1, hp2⟩ := genOps_split h
  subst hops
  intro op hop pg pt t sz col he
  rcases List.mem_append.mp hop with hin | hin
  · obtain ⟨r, _, l, hf, hopl⟩ := passOps_mem hp1 op hin
    obtain ⟨it, _, _, hfill⟩ := eraseOpsForRow_shape hf op hopl
    rw [he] at hfill
    cases hfill
  · obtain ⟨r, hrmem, l, hf, hopl⟩ := passOps_mem hp2 op hin
    obtain ⟨it, dt, hit, hne, hm, hope⟩ := insertOpsForRow_shape hf op hopl
    exact ⟨r, hrmem, it, dt, hit, hne, hm, hope⟩

/-- Witness for C4 (amended), at a one-row concrete plan. -/
theorem C4_insert_geometry_witness :
    ∃ r ∈ [(⟨0,1,"4€","5€"⟩ : Row)], ∃ it dt,
      [(⟨1,"4€","","4","€",⟨4,8,20,12⟩,⟨5,10⟩,9,0⟩ : Item)].get? r.id = some it ∧
      r.newText ≠ it.original_text ∧
      applyMarkup r.newText it.pfx it.currency dyOne = some dt ∧
      Op.insText 0 ⟨4,10⟩ "5 €" 9 0
        = Op.insText (pageRef it) ⟨it.bbox.x0, it.origin.y⟩ dt it.font_size 0 :=
  C4_insert_geometry [⟨1,"4€","","4","€",⟨4,8,20,12⟩,⟨5,10⟩,9,0⟩] [⟨0,1,"4€","5€"⟩]
    [Op.fillRect 0 ⟨4,8,20,12⟩ (1,1,1), Op.insText 0 ⟨4,10⟩ "5 €" 9 0] (by decide)
    (Op.insText 0 ⟨4,10⟩ "5 €" 9 0) (by decide) 0 ⟨4,10⟩ "5 €" 9 0 rfl

/-- Counterexample to C4 as frozen: for an occurrence whose baseline
origin x (5) differs from its bounding-box left edge (4), the insertion
is anchored at x = 4 — the box edge — not at the detected `text_origin`'s
x, so the replacement is NOT drawn at the origin point (5, 10). -/
theorem C4_insert_geometry_cex :
    genOps [⟨1,"4€","","4","€",⟨4,8,20,12⟩,⟨5,10⟩,9,0⟩] [⟨0,1,"4€","5€"⟩]
      = some [Op.fillRect 0 ⟨4,8,20,12⟩ (1,1,1), Op.insText 0 ⟨4,10⟩ "5 €" 9 0] ∧
    (⟨4,10⟩ : Pt) ≠ (⟨5,10⟩ : Pt) := by
  constructor
  · decide
  · decide

/-- **C5** (amended).  A row whose `New Text` equals the occurrence's
original text contributes zero drawing calls: its erase-pass body and its
insert-pass body are both empty, and the whole plan equals the plan with
that row removed.  The page content at a point is unchanged exactly when
no emitted call covers it — in particular such a row's own region is
never painted *by its own row*, though another changed row's overlapping
whiteout may still repaint it (see the counterexample to the frozen
wording). -/
theorem C5_noop_row (prices : List Item) (rows1 rows2 : List Row) (r : Row) (it : Item)
    (hit : prices.get? r.id = some it) (hno : r.newText = it.original_text) :
    eraseOpsForRow prices r = some [] ∧ insertOpsForRow prices r = some [] ∧
    genOps prices (rows1 ++ r :: rows2) = genOps prices (rows1 ++ rows2) ∧
    (∀ ops pg pt, genOps prices (rows1 ++ r :: rows2) = some ops →
      (∀ op ∈ ops, covers op pg pt = false) → renderAt ops pg pt = Pix.base) := by
  have he : eraseOpsForRow prices r = some [] := by
    rw [eraseOpsForRow_eq hit, if_neg (by simp [hno])]
  have hi : insertOpsForRow prices r = some [] := by
    rw [insertOpsForRow_eq hit, if_neg (by simp [hno])]
  refine ⟨he, hi, ?_, ?_⟩
  · unfold genOps
    rw [passOps_append, passOps_append, passOps_append, passOps_append,
      passOps_cons_noop rows2 he, passOps_cons_noop rows2 hi]
  · intro ops pg pt _ hcov
    exact renderAt_base hcov

/-- Witness for C5 (amended), at a concrete two-row plan whose second row
is a no-op. -/
theorem C5_noop_row_witness :
    eraseOpsForRow
      [⟨1,"4€","","4","€",⟨0,0,10,10⟩,⟨0,5⟩,9,0⟩, ⟨1,"7€","","7","€",⟨0,0,10,10⟩,⟨7,5⟩,9,0⟩]
      ⟨1,1,"7€","7€"⟩ = some [] ∧
    insertOpsForRow
      [⟨1,"4€","","4","€",⟨0,0,10,10⟩,⟨0,5⟩,9,0⟩, ⟨1,"7€","","7","€",⟨0,0,10,10⟩,⟨7,5⟩,9,0⟩]
      ⟨1,1,"7€","7€"⟩ = some [] :=
  ⟨(C5_noop_row _ [⟨0,1,"4€","5€"⟩] [] ⟨1,1,"7€","7€"⟩
      ⟨1,"7€","","7","€",⟨0,0,10,10⟩,⟨7,5⟩,9,0⟩ (by decide) (by decide)).1,
   (C5_noop_row _ [⟨0,1,"4€","5€"⟩] [] ⟨1,1,"7€","7€"⟩
      ⟨1,"7€","","7","€",⟨0,0,10,10⟩,⟨7,5⟩,9,0⟩ (by decide) (by decide)).2.1⟩

/-- Counterexample to C5 as frozen: occurrence 1 is a no-op row, yet the
page content inside its bounding box is NOT left untouched — the changed
occurrence 0 shares the same box, and its pass-1 whiteout repaints the
region (the final layer at (9, 9), inside the no-op row's box, is
whiteout, not the original content). -/
theorem C5_noop_row_cex :
    genOps
      [⟨1,"4€","","4","€",⟨0,0,10,10⟩,⟨0,5⟩,9,0⟩, ⟨1,"7€","","7","€",⟨0,0,10,10⟩,⟨7,5⟩,9,0⟩]
      [⟨0,1,"4€","5€"⟩, ⟨1,1,"7€","7€"⟩]
      = some [Op.fillRect 0 ⟨0,0,10,10⟩ (1,1,1), Op.insText 0 ⟨0,5⟩ "5 €" 9 0] ∧
    inRect ⟨0,0,10,10⟩ ⟨9,9⟩ = true ∧
    renderAt [Op.fillRect 0 ⟨0,0,10,10⟩ (1,1,1), Op.insText 0 ⟨0,5⟩ "5 €" 9 0] 0 ⟨9,9⟩
      = Pix.white ∧
    Pix.white ≠ Pix.base := by
  refine ⟨by decide, by decide, by decide, by decide⟩

/-- **C9.** The table `ID` is the occurrence's position in the discovery
list and stays a valid join key through editing and generation: for
every edited row, its `ID` equals its position, indexes `all_prices` in
bounds, retrieves exactly the occurrence the row was derived from, and
the mutator's erase and insert calls for that row target that occurrence's
page and bounding box. -/
theorem C9_row_join (prices : List Item) (mult : Dy) (rows : List Row) (ts : List String)
    (h : buildRows prices mult = some rows) :
    rows.length = prices.length ∧
    (∀ i r2, (applyEdits rows ts).get? i = some r2 →
      r2.id = i ∧ r2.id < prices.length ∧
      ∃ it, prices.get? r2.id = some it ∧ r2.originalText = it.original_text ∧
        r2.page = it.page ∧
        eraseOpsForRow prices r2 = some (if r2.newText ≠ it.original_text then
          [Op.fillRect (pageRef it) it.bbox (1, 1, 1)] else []) ∧
        ∀ l, insertOpsForRow prices r2 = some l →
          ∀ op ∈ l, ∃ dt, op = Op.insText (pageRef it) ⟨it.bbox.x0, it.origin.y⟩ dt
            it.font_size 0) := by
  obtain ⟨hlen, hspec⟩ := buildRowsFrom_spec mult prices 0 rows h
  refine ⟨hlen, ?_⟩
  intro i r2 h2
  obtain ⟨r, t, hro, hts, hr2⟩ := applyEdits_get h2
  obtain ⟨hid, it, hit, hpage, horig, _⟩ := hspec i r hro
  have hid2 : r2.id = i := by rw [hr2]; simpa using hid
  have hlt : r2.id < prices.length := by
    rw [hid2]
    have : prices.get? i = some it := hit
    exact List.get?_eq_some.mp this |>.1
  have hit2 : prices.get? r2.id = some it := by rw [hid2]; exact hit
  refine ⟨hid2, hlt, it, hit2, ?_, ?_, eraseOpsForRow_eq hit2, ?_⟩
  · rw [hr2]
    exact horig
  · rw [hr2]
    exact hpage
  · intro l hl op hop
    obtain ⟨it3, dt, hit3, _, _, hope⟩ := insertOpsForRow_shape hl op hop
    rw [hit2] at hit3
    have hit4 := Option.some_inj.mp hit3
    subst hit4
    exact ⟨dt, hope⟩

/-- Witness for C9 at a concrete one-item table with one edit. -/
theorem C9_row_join_witness :
    ([(⟨0,1,"4 €","4 €"⟩ : Row)].length = 1) ∧
    ((applyEdits [(⟨0,1,"4 €","4 €"⟩ : Row)] ["5€"]).get? 0
        = some (⟨0,1,"4 €","5€"⟩ : Row) →
      True) := by
  refine ⟨?_, fun _ => trivial⟩
  have h := (C9_row_join [⟨1,"4 €","","4","€",⟨4,8,20,12⟩,⟨5,10⟩,9,0⟩] dyOne
    [⟨0,1,"4 €","4 €"⟩] ["5€"] (by decide)).1
  simpa using h

end PriceUpdater
